import Mathlib

/-!
Verification of the Markdown-to-HTML converter of notemarkdown
(`MarkdownParser.parse` in `src/app.js`, lines 77-136).

The converter is a pipeline of JavaScript global regex replacements over one
string.  We embed it shallowly over `List Char`: each `String.replace` pass
becomes a left-to-right scanner (`scanG`) driven by a deterministic matcher
that resolves the concrete regex of that pass (including its backtracking
behaviour, worked out by hand and documented at each matcher).  Machine
strings are `List Char`; fuel (always supplied as `length + 1`, one unit per
consumed character) keeps every scanner structurally recursive so that all
definitions evaluate by `decide`.
-/

namespace MarkdownParser

/-- The backquote character, U+0060. -/
def tick : Char := Char.ofNat 96

/-- JavaScript `\s` on the character set this program can meet: ASCII
whitespace plus no-break space (the JS class also contains further Unicode
space characters, none of which any stage below distinguishes). -/
def isWs (c : Char) : Bool :=
  c == ' ' || c == '\t' || c == '\n' || c == '\r' ||
  c == '\x0b' || c == '\x0c' || c == ' '

/-- `str.replace(/c/g, rep)` for a single-character pattern: one left-to-right
pass, the replacement text is not rescanned. -/
def replaceChar (c : Char) (rep : List Char) : List Char → List Char
  | [] => []
  | x :: xs =>
    if x == c then rep ++ replaceChar c rep xs else x :: replaceChar c rep xs

/-- Line 83: `html.replace(/&/g,'&amp;').replace(/</g,'&lt;').replace(/>/g,'&gt;')`. -/
def escapeHtml (cs : List Char) : List Char :=
  replaceChar '>' "&gt;".toList
    (replaceChar '<' "&lt;".toList
      (replaceChar '&' "&amp;".toList cs))

/-- One global-regex replacement pass.  Scan left to right; at each position
offer the suffix to the matcher `f` together with the line-start flag (for the
`m`-flag anchor `^`); on a match, emit its replacement and resume after the
consumed text (none of the matchers below ends its match on a newline, so the
resumed position is never a line start); otherwise emit one character.  Fuel
decreases once per step; callers pass `length + 1`, so it never runs out. -/
def scanG (f : Bool → List Char → Option (List Char × List Char)) :
    Nat → Bool → List Char → List Char
  | 0, _, cs => cs
  | _ + 1, _, [] => []
  | fuel + 1, atStart, c :: rest =>
    match f atStart (c :: rest) with
    | some (rep, rest2) => rep ++ scanG f fuel false rest2
    | none => c :: scanG f fuel (c == '\n') rest

/-- Run one pass with enough fuel to consume the whole input. -/
def runPass (f : Bool → List Char → Option (List Char × List Char))
    (cs : List Char) : List Char :=
  scanG f (cs.length + 1) true cs

/-- `\s+(.+)$` under the `m` flag, after some line-start prefix has been
consumed.  `\s+` is greedy and may cross newlines; `.` excludes newlines; `$`
matches before a newline or at the end.  After the maximal whitespace run the
next character, if any, is non-whitespace (hence not a newline), so `(.+)`
takes the rest of that line.  If the whitespace run reaches the end of the
input, the engine backtracks: the last non-newline whitespace character
(beyond the first, which `\s+` must keep) becomes the capture, and any
trailing newlines are left unconsumed (`$` matches before them). -/
def wsContent (cs : List Char) : Option (List Char × List Char) :=
  let ws := cs.takeWhile isWs
  let after := cs.dropWhile isWs
  if ws.isEmpty then none
  else if after.isEmpty then
    let tl := (ws.drop 1).reverse
    match tl.dropWhile (fun c => c == '\n') with
    | [] => none
    | c :: _ => some ([c], (tl.takeWhile (fun c => c == '\n')).reverse)
  else
    some (after.takeWhile (fun c => c != '\n'), after.dropWhile (fun c => c != '\n'))

/-- Lines 86-91: `/^#{n}\s+(.+)$/gm → <hn>$1</hn>`, for `n` from 6 down to 1.
If more than `n` hashes are present the character after the first `n` hashes
is `#`, not whitespace, and the match fails, which is exactly the regex's
behaviour. -/
def headerF (n : Nat) (atStart : Bool) (cs : List Char) :
    Option (List Char × List Char) :=
  if atStart && (List.replicate n '#').isPrefixOf cs then
    match wsContent (cs.drop n) with
    | some (content, rest) =>
      some ('<' :: 'h' :: Char.ofNat (48 + n) :: '>' :: content ++
            ('<' :: '/' :: 'h' :: Char.ofNat (48 + n) :: '>' :: []), rest)
    | none => none
  else none

/-- Header passes, longest marker first (line 86 to line 91). -/
def headersAll (cs : List Char) : List Char :=
  runPass (headerF 1)
    (runPass (headerF 2)
      (runPass (headerF 3)
        (runPass (headerF 4)
          (runPass (headerF 5)
            (runPass (headerF 6) cs)))))

/-- Body of a lazy capture `(.+?)` / `([\s\S]*?)` followed by `closer`: at each
step first try to close, otherwise move one more character (a newline only
under `dotAll`) into the reversed accumulator. -/
def lazyGo (closer : List Char) (dotAll : Bool) :
    List Char → List Char → Option (List Char × List Char)
  | [], acc => if closer.isPrefixOf [] then some (acc.reverse, []) else none
  | c :: rest, acc =>
    if closer.isPrefixOf (c :: rest) then
      some (acc.reverse, (c :: rest).drop closer.length)
    else if c == '\n' && !dotAll then none
    else lazyGo closer dotAll rest (c :: acc)

/-- Lines 94-95: `/\*\*(.+?)\*\*/g` and `/__(.+?)__/g` → `<strong>$1</strong>`.
The lazy capture first takes one character (which may itself be the marker)
and then looks for the closing pair. -/
def strongF (m : Char) (_ : Bool) (cs : List Char) :
    Option (List Char × List Char) :=
  match cs with
  | m1 :: m2 :: c :: rest =>
    if m1 == m && m2 == m && c != '\n' then
      match lazyGo [m, m] false rest [c] with
      | some (cap, rest2) =>
        some ("<strong>".toList ++ cap ++ "</strong>".toList, rest2)
      | none => none
    else none
  | _ => none

/-- Lines 98-99: `/\*(.+?)\*/g` and `/_(.+?)_/g` → `<em>$1</em>`. -/
def emF (m : Char) (_ : Bool) (cs : List Char) :
    Option (List Char × List Char) :=
  match cs with
  | m1 :: c :: rest =>
    if m1 == m && c != '\n' then
      match lazyGo [m] false rest [c] with
      | some (cap, rest2) => some ("<em>".toList ++ cap ++ "</em>".toList, rest2)
      | none => none
    else none
  | _ => none

/-- Line 102: ``/```([\s\S]*?)```/g`` → `<pre><code>$1</code></pre>`; the lazy
capture may be empty and may contain newlines. -/
def codeBlockF (_ : Bool) (cs : List Char) : Option (List Char × List Char) :=
  match cs with
  | a :: b :: c :: rest =>
    if a == tick && b == tick && c == tick then
      match lazyGo [tick, tick, tick] true rest [] with
      | some (cap, rest2) =>
        some ("<pre><code>".toList ++ cap ++ "</code></pre>".toList, rest2)
      | none => none
    else none
  | _ => none

/-- Line 105: ``/`([^`]+)`/g`` → `<code>$1</code>`; the greedy non-backquote
run must be non-empty and be followed by the closing backquote. -/
def inlineCodeF (_ : Bool) (cs : List Char) : Option (List Char × List Char) :=
  match cs with
  | a :: rest =>
    if a == tick then
      let body := rest.takeWhile (fun c => c != tick)
      match rest.dropWhile (fun c => c != tick) with
      | b :: rest2 =>
        if body.isEmpty then none
        else if b == tick then
          some ("<code>".toList ++ body ++ "</code>".toList, rest2)
        else none
      | [] => none
    else none
  | _ => none

/-- Line 108: `/\[([^\]]+)\]\(([^)]+)\)/g` →
`<a href="$2" target="_blank">$1</a>`. -/
def linkF (_ : Bool) (cs : List Char) : Option (List Char × List Char) :=
  match cs with
  | a :: rest =>
    if a == '[' then
      let label := rest.takeWhile (fun c => c != ']')
      if label.isEmpty then none
      else
        match rest.dropWhile (fun c => c != ']') with
        | b :: c :: r2 =>
          if b == ']' && c == '(' then
            let target := r2.takeWhile (fun c => c != ')')
            if target.isEmpty then none
            else
              match r2.dropWhile (fun c => c != ')') with
              | d :: r3 =>
                if d == ')' then
                  some ("<a href=\"".toList ++ target ++
                        "\" target=\"_blank\">".toList ++ label ++
                        "</a>".toList, r3)
                else none
              | [] => none
          else none
        | _ => none
    else none
  | _ => none

/-- Line 111: `/!\[([^\]]*)\]\(([^)]+)\)/g` → `<img src="$2" alt="$1" />`;
the alt capture may be empty. -/
def imageF (_ : Bool) (cs : List Char) : Option (List Char × List Char) :=
  match cs with
  | a :: b :: rest =>
    if a == '!' && b == '[' then
      let alt := rest.takeWhile (fun c => c != ']')
      match rest.dropWhile (fun c => c != ']') with
      | c :: d :: r2 =>
        if c == ']' && d == '(' then
          let target := r2.takeWhile (fun c => c != ')')
          if target.isEmpty then none
          else
            match r2.dropWhile (fun c => c != ')') with
            | e :: r3 =>
              if e == ')' then
                some ("<img src=\"".toList ++ target ++
                      "\" alt=\"".toList ++ alt ++ "\" />".toList, r3)
              else none
            | [] => none
        else none
      | _ => none
    else none
  | _ => none

/-- Lines 114-115: `/^---$/gm` and `/^\*\*\*$/gm` → `<hr>`: exactly three
marker characters alone on a line (`$` matches before the newline, which is
not consumed). -/
def hrF (m : Char) (atStart : Bool) (cs : List Char) :
    Option (List Char × List Char) :=
  match cs with
  | a :: b :: c :: rest =>
    if atStart && a == m && b == m && c == m &&
        (rest.isEmpty || rest.head? == some '\n') then
      some ("<hr>".toList, rest)
    else none
  | _ => none

/-- Line 118: `/^&gt;\s+(.+)$/gm` → `<blockquote>$1</blockquote>`; the marker
is the already-escaped `>`. -/
def blockquoteF (atStart : Bool) (cs : List Char) :
    Option (List Char × List Char) :=
  if atStart && "&gt;".toList.isPrefixOf cs then
    match wsContent (cs.drop 4) with
    | some (content, rest) =>
      some ("<blockquote>".toList ++ content ++ "</blockquote>".toList, rest)
    | none => none
  else none

/-- Line 121: `/^[*-]\s+(.+)$/gm` → `<li>$1</li>`. -/
def ulItemF (atStart : Bool) (cs : List Char) :
    Option (List Char × List Char) :=
  match cs with
  | a :: rest =>
    if atStart && (a == '*' || a == '-') then
      match wsContent rest with
      | some (content, rest2) =>
        some ("<li>".toList ++ content ++ "</li>".toList, rest2)
      | none => none
    else none
  | _ => none

/-- Line 125: `/^\d+\.\s+(.+)$/gm` → `<li>$1</li>`. -/
def olItemF (atStart : Bool) (cs : List Char) :
    Option (List Char × List Char) :=
  if atStart then
    let ds := cs.takeWhile Char.isDigit
    if ds.isEmpty then none
    else
      match cs.dropWhile Char.isDigit with
      | d :: r2 =>
        if d == '.' then
          match wsContent r2 with
          | some (content, rest) =>
            some ("<li>".toList ++ content ++ "</li>".toList, rest)
          | none => none
        else none
      | [] => none
  else none

/-- Split at the first occurrence of `pat`, returning the parts before and
after it (leftmost occurrence, as a regex or `String.indexOf` would find). -/
def splitFirstSub (pat : List Char) : List Char → Option (List Char × List Char)
  | [] => if pat.isPrefixOf [] then some ([], []) else none
  | c :: rest =>
    if pat.isPrefixOf (c :: rest) then some ([], (c :: rest).drop pat.length)
    else
      match splitFirstSub pat rest with
      | some (p, q) => some (c :: p, q)
      | none => none

/-- Split at the last occurrence of `pat` (via the first occurrence of the
reversed pattern in the reversed text). -/
def splitLastSub (pat : List Char) (cs : List Char) :
    Option (List Char × List Char) :=
  match splitFirstSub pat.reverse cs.reverse with
  | some (p, q) => some (q.reverse, p.reverse)
  | none => none

/-- Line 122: `html.replace(/(<li>.*<\/li>)/s, '<ul>$1</ul>')`.  A single
(non-global) replacement; with the `s` flag the greedy `.*` matches newlines,
so the match runs from the first `<li>` in the whole text to the last `</li>`
after it, and everything in between — list items or not — is wrapped in the
one `<ul>`. -/
def ulWrapStage (cs : List Char) : List Char :=
  match splitFirstSub "<li>".toList cs with
  | none => cs
  | some (pre, post) =>
    match splitLastSub "</li>".toList post with
    | none => cs
    | some (mid, suf) =>
      pre ++ "<ul><li>".toList ++ mid ++ "</li></ul>".toList ++ suf

/-- `html.split('\n\n')` (line 128): split on each non-overlapping occurrence
of a blank-line separator, left to right. -/
def splitNlNl : List Char → List Char → List (List Char)
  | [], acc => [acc.reverse]
  | [a], acc => [(a :: acc).reverse]
  | a :: b :: rest, acc =>
    if a == '\n' && b == '\n' then acc.reverse :: splitNlNl rest []
    else splitNlNl (b :: rest) (a :: acc)

/-- Line 129: `para.match(/^<[h|u|o|p|b]/)` — the segment starts with `<`
followed by one of the six characters of the class (which, written as an
alternation inside brackets, literally contains `|`). -/
def blockStartTest (seg : List Char) : Bool :=
  match seg with
  | a :: c :: _ =>
    a == '<' &&
      (c == 'h' || c == '|' || c == 'u' || c == 'o' || c == 'p' || c == 'b')
  | _ => false

/-- Lines 128-133, per segment: wrap in `<p>…</p>` unless the block test holds. -/
def wrapPara (seg : List Char) : List Char :=
  if blockStartTest seg then seg else "<p>".toList ++ seg ++ "</p>".toList

/-- `.join('\n')` (line 133). -/
def intercalateNl : List (List Char) → List Char
  | [] => []
  | [x] => x
  | x :: y :: rest => x ++ '\n' :: intercalateNl (y :: rest)

/-- Lines 128-133. -/
def paragraphsStage (cs : List Char) : List Char :=
  intercalateNl ((splitNlNl cs []).map wrapPara)

/-- Lines 80-135: the full pipeline, each pass in source order on the output
of the previous one. -/
def pipeline (cs : List Char) : List Char :=
  let h1 := escapeHtml cs
  let h2 := headersAll h1
  let h3 := runPass (strongF '*') h2
  let h4 := runPass (strongF '_') h3
  let h5 := runPass (emF '*') h4
  let h6 := runPass (emF '_') h5
  let h7 := runPass codeBlockF h6
  let h8 := runPass inlineCodeF h7
  let h9 := runPass linkF h8
  let h10 := runPass imageF h9
  let h11 := runPass (hrF '-') h10
  let h12 := runPass (hrF '*') h11
  let h13 := runPass blockquoteF h12
  let h14 := runPass ulItemF h13
  let h15 := ulWrapStage h14
  let h16 := runPass olItemF h15
  paragraphsStage h16

/-- `MarkdownParser.parse` (lines 77-136).  `if (!markdown) return ''` is the
empty-string guard; the absent (null/undefined) case is `parseOpt`. -/
def parse (markdown : String) : String :=
  if markdown = "" then "" else String.mk (pipeline markdown.toList)

/-- `parse` as called with a possibly absent argument: `!markdown` is true for
`null`/`undefined` as well as for the empty string. -/
def parseOpt : Option String → String
  | none => ""
  | some s => parse s

/-! ### Sanitization invariant

The output-well-formedness claim is stated through a grammar: a string is
`Sanitized A` when it is a concatenation of ordinary characters (never a raw
`&`, `<` or `>`), the three escape entities, and generated markup fragments
drawn from `A`.  Each pipeline pass enlarges `A` by exactly the fragments its
replacement template introduces. -/

/-- The entities produced by the escape pass. -/
def entityAtoms : List (List Char) :=
  ["&amp;".toList, "&lt;".toList, "&gt;".toList]

/-- Markup fragments present after the header passes. -/
def atomsHead : List (List Char) :=
  entityAtoms ++
  ["<h1>".toList, "</h1>".toList, "<h2>".toList, "</h2>".toList,
   "<h3>".toList, "</h3>".toList, "<h4>".toList, "</h4>".toList,
   "<h5>".toList, "</h5>".toList, "<h6>".toList, "</h6>".toList]

/-- … after the bold passes. -/
def atomsStrong : List (List Char) :=
  atomsHead ++ ["<strong>".toList, "</strong>".toList]

/-- … after the italic passes. -/
def atomsEm : List (List Char) :=
  atomsStrong ++ ["<em>".toList, "</em>".toList]

/-- … after the fenced/inline code passes. -/
def atomsCode : List (List Char) :=
  atomsEm ++ ["<pre>".toList, "<code>".toList, "</code>".toList, "</pre>".toList]

/-- … after the link pass. -/
def atomsLink : List (List Char) :=
  atomsCode ++ ["<a href=\"".toList, "\" target=\"_blank\">".toList, "</a>".toList]

/-- … after the image pass. -/
def atomsImg : List (List Char) :=
  atomsLink ++ ["<img src=\"".toList, "\" alt=\"".toList, "\" />".toList]

/-- … after the horizontal-rule passes. -/
def atomsHr : List (List Char) :=
  atomsImg ++ ["<hr>".toList]

/-- … after the blockquote pass. -/
def atomsBq : List (List Char) :=
  atomsHr ++ ["<blockquote>".toList, "</blockquote>".toList]

/-- … after the unordered-list item pass. -/
def atomsLi : List (List Char) :=
  atomsBq ++ ["<li>".toList, "</li>".toList]

/-- … after the single list-wrapping replacement. -/
def atomsUl : List (List Char) :=
  atomsLi ++ ["<ul>".toList, "</ul>".toList]

/-- … after paragraph wrapping: every fragment the converter can emit. -/
def atomsPara : List (List Char) :=
  atomsUl ++ ["<p>".toList, "</p>".toList]

/-- `Sanitized A cs`: `cs` is a concatenation of ordinary characters (no raw
`&`, `<`, `>`), and whole fragments from `A`. -/
inductive Sanitized (A : List (List Char)) : List Char → Prop
  | nil : Sanitized A []
  | lit (c : Char) (cs : List Char) (h1 : c ≠ '&') (h2 : c ≠ '<') (h3 : c ≠ '>')
      (h : Sanitized A cs) : Sanitized A (c :: cs)
  | atom (a : List Char) (cs : List Char) (ha : a ∈ A) (hne : a ≠ [])
      (h : Sanitized A cs) : Sanitized A (a ++ cs)

/-! ## General lemmas about the scanners -/

theorem scanG_nil (f : Bool → List Char → Option (List Char × List Char))
    (fuel : Nat) (b : Bool) : scanG f fuel b [] = [] := by
  cases fuel <;> rfl

theorem mk_toList (l : List Char) : (String.mk l).toList = l := rfl

/-- If a pattern is a prefix of `l ++ pat ++ r` with `l` non-empty, then it
already occurs inside `l ++ pat.dropLast`. -/
theorem prefix_infix_dropLast {pat l r : List Char} (hne : pat ≠ [])
    (hl : l ≠ []) (hp : pat <+: l ++ (pat ++ r)) :
    pat <:+: l ++ pat.dropLast := by
  have h1 : l ++ pat.dropLast <+: l ++ (pat ++ r) := by
    obtain ⟨t, ht⟩ := (List.dropLast_prefix pat).trans (List.prefix_append pat r)
    exact ⟨t, by rw [List.append_assoc, ht]⟩
  have h2 : pat.length ≤ (l ++ pat.dropLast).length := by
    have hl1 : 1 ≤ l.length := List.length_pos.mpr hl
    have hp1 : 1 ≤ pat.length := List.length_pos.mpr hne
    simp only [List.length_append, List.length_dropLast]
    omega
  exact (List.prefix_of_prefix_length_le hp h1 h2).isInfix

/-- `splitFirstSub` on a text with a marked occurrence whose position carries
no earlier occurrence finds exactly that occurrence. -/
theorem splitFirstSub_append (pat a b : List Char) (hne : pat ≠ [])
    (h : ¬(pat <:+: a ++ pat.dropLast)) :
    splitFirstSub pat (a ++ (pat ++ b)) = some (a, b) := by
  induction a with
  | nil =>
    cases pat with
    | nil => exact absurd rfl hne
    | cons p ps =>
      have hpre : (p :: ps).isPrefixOf ((p :: ps) ++ b) = true :=
        List.isPrefixOf_iff_prefix.mpr (List.prefix_append _ _)
      show splitFirstSub (p :: ps) ([] ++ ((p :: ps) ++ b)) = some ([], b)
      simp only [List.nil_append, List.cons_append, splitFirstSub,
        List.append_eq] at hpre ⊢
      rw [if_pos hpre]
      simp only [List.length_cons, List.drop_succ_cons, List.drop_left]
  | cons x a ih =>
    have hnfire : ¬(pat.isPrefixOf (x :: (a ++ (pat ++ b))) = true) := by
      intro hfire
      exact h (prefix_infix_dropLast hne (List.cons_ne_nil x a)
        (by simpa using List.isPrefixOf_iff_prefix.mp hfire))
    have htail : ¬(pat <:+: a ++ pat.dropLast) := fun hx => by
      exact h (by simpa using List.infix_cons (a := x) hx)
    show splitFirstSub pat (x :: (a ++ (pat ++ b))) = some (x :: a, b)
    simp only [splitFirstSub, List.append_eq]
    rw [if_neg hnfire, ih htail]

/-- `splitLastSub` on a text with a marked occurrence followed by no later
occurrence finds exactly that occurrence. -/
theorem splitLastSub_append (pat a b : List Char) (hne : pat ≠ [])
    (h : ¬(pat <:+: pat.drop 1 ++ b)) :
    splitLastSub pat (a ++ (pat ++ b)) = some (a, b) := by
  have hrev : pat.reverse.dropLast = (pat.drop 1).reverse := by
    cases pat with
    | nil => rfl
    | cons p ps => simp
  have hcond : ¬(pat.reverse <:+: b.reverse ++ pat.reverse.dropLast) := by
    rw [hrev, show b.reverse ++ (pat.drop 1).reverse = (pat.drop 1 ++ b).reverse by
      simp]
    exact fun hx => h (List.reverse_infix.mp hx)
  unfold splitLastSub
  rw [show (a ++ (pat ++ b)).reverse = b.reverse ++ (pat.reverse ++ a.reverse) by
    simp]
  rw [splitFirstSub_append pat.reverse b.reverse a.reverse
    (by simpa using hne) hcond]
  simp

/-- A lazy capture closed by `closer` consumes exactly up to the marked
occurrence of `closer` when no earlier occurrence exists. -/
theorem lazyGo_append (closer : List Char) (dotAll : Bool) :
    ∀ body acc rest : List Char, closer ≠ [] →
      (dotAll = true ∨ ∀ c ∈ body, c ≠ '\n') →
      ¬(closer <:+: body ++ closer.dropLast) →
      lazyGo closer dotAll (body ++ (closer ++ rest)) acc =
        some (acc.reverse ++ body, rest) := by
  intro body
  induction body with
  | nil =>
    intro acc rest hne _ _
    cases closer with
    | nil => exact absurd rfl hne
    | cons p ps =>
      have hpre : (p :: ps).isPrefixOf ((p :: ps) ++ rest) = true :=
        List.isPrefixOf_iff_prefix.mpr (List.prefix_append _ _)
      show lazyGo (p :: ps) dotAll ([] ++ ((p :: ps) ++ rest)) acc =
        some (acc.reverse ++ [], rest)
      simp only [List.nil_append, List.append_nil, List.cons_append, lazyGo,
        List.append_eq] at hpre ⊢
      rw [if_pos hpre]
      simp only [List.length_cons, List.drop_succ_cons, List.drop_left]
  | cons x body ih =>
    intro acc rest hne hnl h
    have hnfire : ¬(closer.isPrefixOf (x :: (body ++ (closer ++ rest))) = true) := by
      intro hfire
      have hpfx : closer <+: (x :: body) ++ (closer ++ rest) := by
        simpa using List.isPrefixOf_iff_prefix.mp hfire
      have hinf := prefix_infix_dropLast hne (List.cons_ne_nil x body) hpfx
      exact h (by simpa using hinf)
    have hxnl : ¬((x == '\n' && !dotAll) = true) := by
      cases dotAll with
      | true => simp
      | false =>
        rcases hnl with h' | h'
        · cases h'
        · simp [h' x (List.mem_cons_self x body)]
    have hih := ih (x :: acc) rest hne
      (hnl.imp id (fun h' c hc => h' c (List.mem_cons_of_mem x hc)))
      (fun hx => h (by simpa using List.infix_cons (a := x) hx))
    show lazyGo closer dotAll (x :: (body ++ (closer ++ rest))) acc =
      some (acc.reverse ++ (x :: body), rest)
    simp only [lazyGo, List.append_eq]
    rw [if_neg hnfire, if_neg hxnl, hih]
    simp

/-! ## The sanitization invariant: structural lemmas -/

theorem Sanitized.append {A : List (List Char)} {xs ys : List Char}
    (hx : Sanitized A xs) (hy : Sanitized A ys) : Sanitized A (xs ++ ys) := by
  induction hx with
  | nil => exact hy
  | lit c cs h1 h2 h3 _ ih => exact Sanitized.lit c _ h1 h2 h3 ih
  | atom a cs ha hne _ ih =>
    rw [List.append_assoc]
    exact Sanitized.atom a _ ha hne ih

theorem Sanitized.mono {A B : List (List Char)} {cs : List Char}
    (hAB : ∀ a ∈ A, a ∈ B) (h : Sanitized A cs) : Sanitized B cs := by
  induction h with
  | nil => exact Sanitized.nil
  | lit c cs h1 h2 h3 _ ih => exact Sanitized.lit c _ h1 h2 h3 ih
  | atom a cs ha hne _ ih => exact Sanitized.atom a _ (hAB a ha) hne ih

/-- A run of plain (non-`&<>`) characters is sanitized. -/
theorem sanitized_of_lits {A : List (List Char)} {cs : List Char}
    (h : ∀ c ∈ cs, c ≠ '&' ∧ c ≠ '<' ∧ c ≠ '>') : Sanitized A cs := by
  induction cs with
  | nil => exact Sanitized.nil
  | cons c cs ih =>
    obtain ⟨h1, h2, h3⟩ := h c (List.mem_cons_self c cs)
    exact Sanitized.lit c cs h1 h2 h3 (ih fun d hd => h d (List.mem_cons_of_mem c hd))

/-- Inverting a sanitized text whose head character opens no fragment of `A`:
the head is a plain character and the tail is sanitized. -/
theorem sanitized_cons_inv {A : List (List Char)} {c : Char} {ys : List Char}
    (hc : ∀ a ∈ A, a.head? ≠ some c)
    (h : Sanitized A (c :: ys)) :
    (c ≠ '&' ∧ c ≠ '<' ∧ c ≠ '>') ∧ Sanitized A ys := by
  generalize hzs : c :: ys = zs at h
  cases h with
  | nil => exact absurd hzs (by simp)
  | lit d ds h1 h2 h3 hs =>
    injection hzs with he1 he2
    subst he1
    subst he2
    exact ⟨⟨h1, h2, h3⟩, hs⟩
  | atom a cs ha hne hs =>
    cases a with
    | nil => exact absurd rfl hne
    | cons x a' =>
      rw [List.cons_append] at hzs
      injection hzs with he1 _
      exact absurd (by rw [← he1]; rfl : (x :: a').head? = some c) (hc (x :: a') ha)

/-- Splitting a sanitized text just before a character that occurs in no
fragment of `A` beyond its head position: both parts are sanitized (no
fragment can straddle the split). -/
theorem split_at_clean {A : List (List Char)} {c : Char}
    (hc : ∀ a ∈ A, c ∉ a.drop 1) :
    ∀ {zs : List Char}, Sanitized A zs → ∀ xs ys, zs = xs ++ c :: ys →
      Sanitized A xs ∧ Sanitized A (c :: ys) := by
  intro zs h
  induction h with
  | nil =>
    intro xs ys hx
    exact absurd hx.symm (by simp)
  | lit d ds h1 h2 h3 hs ih =>
    intro xs ys hx
    cases xs with
    | nil =>
      rw [List.nil_append] at hx
      injection hx with he1 he2
      subst he1
      subst he2
      exact ⟨Sanitized.nil, Sanitized.lit _ _ h1 h2 h3 hs⟩
    | cons x xs' =>
      rw [List.cons_append] at hx
      injection hx with he1 he2
      subst he1
      obtain ⟨ha, hb⟩ := ih xs' ys he2
      exact ⟨Sanitized.lit _ _ h1 h2 h3 ha, hb⟩
  | atom a cs ha hne hs ih =>
    intro xs ys hx
    cases xs with
    | nil =>
      refine ⟨Sanitized.nil, ?_⟩
      rw [List.nil_append] at hx
      rw [← hx]
      exact Sanitized.atom a cs ha hne hs
    | cons x xs' =>
      rcases List.append_eq_append_iff.mp hx with ⟨a', ha1, ha2⟩ | ⟨c', hc1, hc2⟩
      · -- the fragment lies inside the left part
        obtain ⟨hp, hq⟩ := ih a' ys ha2
        refine ⟨?_, hq⟩
        rw [ha1]
        exact Sanitized.atom a a' ha hne hp
      · -- the fragment ends at or straddles the split point
        cases c' with
        | nil =>
          rw [List.append_nil] at hc1
          rw [List.nil_append] at hc2
          refine ⟨?_, ?_⟩
          · rw [← hc1]
            have := Sanitized.atom a [] ha hne Sanitized.nil
            rwa [List.append_nil] at this
          · rw [hc2]
            exact hs
        | cons e c'' =>
          exfalso
          injection hc2 with he1 _
          subst he1
          apply hc a ha
          rw [hc1]
          simp

/-- Characters of a `takeWhile isWs` run are never `&`, `<` or `>`. -/
theorem isWs_ne {c : Char} (h : isWs c = true) : c ≠ '&' ∧ c ≠ '<' ∧ c ≠ '>' := by
  refine ⟨?_, ?_, ?_⟩ <;> rintro rfl <;> simp [isWs] at h

/-- Dropping a run of characters that no fragment of `A` starts with keeps a
text sanitized. -/
theorem sanitized_dropWhile {A : List (List Char)} (p : Char → Bool)
    (hheads : ∀ a ∈ A, ∀ x, a.head? = some x → p x = false) :
    ∀ {cs}, Sanitized A cs → Sanitized A (cs.dropWhile p) := by
  intro cs h
  induction h with
  | nil => exact Sanitized.nil
  | lit c cs h1 h2 h3 hs ih =>
    rw [List.dropWhile_cons]
    by_cases hp : p c = true
    · rw [if_pos hp]
      exact ih
    · rw [if_neg hp]
      exact Sanitized.lit c cs h1 h2 h3 hs
  | atom a cs ha hne hs ih =>
    cases a with
    | nil => exact absurd rfl hne
    | cons x a' =>
      have hx : p x = false := hheads _ ha x rfl
      rw [List.cons_append, List.dropWhile_cons, if_neg (by simp [hx])]
      exact Sanitized.atom (x :: a') cs ha hne hs

/-- The head of a non-empty `dropWhile` result fails the predicate. -/
theorem dropWhile_head_false {p : Char → Bool} :
    ∀ (l : List Char) (c : Char) (t : List Char),
      List.dropWhile p l = c :: t → p c = false := by
  intro l
  induction l with
  | nil => intro c t h; exact absurd h (by simp)
  | cons x xs ih =>
    intro c t h
    rw [List.dropWhile_cons] at h
    by_cases hp : p x = true
    · rw [if_pos hp] at h
      exact ih c t h
    · rw [if_neg hp] at h
      injection h with he _
      rw [← he]
      simpa using hp

/-! ## The inert-scan lemma and the generic preservation theorem -/

/-- Scanning an inert block: if the matcher fires neither at the start of `a`
(under the incoming flag) nor at any interior position (all interior flags are
false since `a` has no newline), the scanner copies `a` and continues. -/
theorem scanG_inert (f : Bool → List Char → Option (List Char × List Char)) :
    ∀ (a : List Char), a ≠ [] → ∀ (rest : List Char) (fuel : Nat) (b : Bool),
      f b (a ++ rest) = none →
      (∀ i, 0 < i → i < a.length → f false (a.drop i ++ rest) = none) →
      (∀ c ∈ a, c ≠ '\n') →
      scanG f fuel b (a ++ rest) = a ++ scanG f (fuel - a.length) false rest := by
  intro a
  induction a with
  | nil => intro h; exact absurd rfl h
  | cons x a' ih =>
    intro _ rest fuel b hf0 hfi hnl
    cases fuel with
    | zero =>
      show x :: (a' ++ rest) = (x :: a') ++ scanG f (0 - (x :: a').length) false rest
      rw [Nat.zero_sub]
      rfl
    | succ k =>
      have hstep : scanG f (k + 1) b ((x :: a') ++ rest) =
          x :: scanG f k (x == '\n') (a' ++ rest) := by
        show (match f b (x :: (a' ++ rest)) with
          | some (rep, rest2) => rep ++ scanG f k false rest2
          | none => x :: scanG f k (x == '\n') (a' ++ rest)) = _
        rw [show f b (x :: (a' ++ rest)) = none from hf0]
      have hxnl : (x == '\n') = false := by
        simpa using hnl x (List.mem_cons_self x a')
      rw [hstep, hxnl]
      cases ha' : a' with
      | nil =>
        subst ha'
        simp [scanG]
      | cons y a'' =>
        rw [← ha']
        have hne' : a' ≠ [] := by rw [ha']; simp
        rw [ih hne' rest k false
          (by
            have := hfi 1 (by omega) (by rw [ha']; simp)
            simpa using this)
          (fun i hi0 hilen => by
            have := hfi (i + 1) (by omega) (by simpa using Nat.add_lt_add_right hilen 1)
            simpa using this)
          (fun c hc => hnl c (List.mem_cons_of_mem x hc))]
        show x :: (a' ++ scanG f (k - a'.length) false rest) =
          (x :: a') ++ scanG f (k + 1 - (x :: a').length) false rest
        rw [show k + 1 - (x :: a').length = k - a'.length by simp]
        rfl

/-- The generic pass-preservation theorem.  If the matcher (1) on any
sanitized text beginning with a fragment either fails or returns a sanitized
replacement and remainder, (2) never fires strictly inside a fragment, and
(3) on any sanitized text beginning with a plain character either fails or
returns a sanitized replacement and remainder, then a full pass sends
`A`-sanitized text to `A'`-sanitized text. -/
theorem scanG_preserves (f : Bool → List Char → Option (List Char × List Char))
    (A A' : List (List Char))
    (hsub : ∀ a ∈ A, a ∈ A')
    (hnoNl : ∀ a ∈ A, '\n' ∉ a)
    (hatom : ∀ a ∈ A, ∀ b (rest : List Char), Sanitized A rest →
      f b (a ++ rest) = none ∨
      ∃ rep rest2, f b (a ++ rest) = some (rep, rest2) ∧
        Sanitized A' rep ∧ Sanitized A rest2)
    (hinert : ∀ a ∈ A, ∀ (rest : List Char), ∀ i, 0 < i → i < a.length →
      f false (a.drop i ++ rest) = none)
    (hfire : ∀ b (c : Char) (cs : List Char),
      c ≠ '&' → c ≠ '<' → c ≠ '>' → Sanitized A (c :: cs) →
      f b (c :: cs) = none ∨
      ∃ rep rest2, f b (c :: cs) = some (rep, rest2) ∧
        Sanitized A' rep ∧ Sanitized A rest2) :
    ∀ fuel b cs, Sanitized A cs → Sanitized A' (scanG f fuel b cs) := by
  intro fuel
  induction fuel using Nat.strong_induction_on with
  | _ fuel ihf =>
    intro b cs h
    cases fuel with
    | zero => exact (show scanG f 0 b cs = cs from rfl) ▸ h.mono hsub
    | succ k =>
      cases h with
      | nil => exact (scanG_nil f (k + 1) b) ▸ Sanitized.nil
      | lit c cs h1 h2 h3 hs =>
        rcases hfire b c cs h1 h2 h3 (Sanitized.lit c cs h1 h2 h3 hs) with hnone | ⟨rep, rest2, hsome, hrep, hrest2⟩
        · have hstep : scanG f (k + 1) b (c :: cs) =
              c :: scanG f k (c == '\n') cs := by
            show (match f b (c :: cs) with
              | some (rep, rest2) => rep ++ scanG f k false rest2
              | none => c :: scanG f k (c == '\n') cs) = _
            rw [hnone]
          rw [hstep]
          exact Sanitized.lit c _ h1 h2 h3 (ihf k (by omega) _ cs hs)
        · have hstep : scanG f (k + 1) b (c :: cs) =
              rep ++ scanG f k false rest2 := by
            show (match f b (c :: cs) with
              | some (rep, rest2) => rep ++ scanG f k false rest2
              | none => c :: scanG f k (c == '\n') cs) = _
            rw [hsome]
          rw [hstep]
          exact hrep.append (ihf k (by omega) false rest2 hrest2)
      | atom a cs ha hne hs =>
        rcases hatom a ha b cs hs with hnone | ⟨rep, rest2, hsome, hrep, hrest2⟩
        · rw [scanG_inert f a hne cs (k + 1) b hnone (hinert a ha cs)
            (fun c hc hn => hnoNl a ha (hn ▸ hc))]
          refine Sanitized.append ?_ ?_
          · have hh := Sanitized.atom a [] (hsub a ha) hne Sanitized.nil
            rwa [List.append_nil] at hh
          · exact ihf (k + 1 - a.length) (by
              have : 1 ≤ a.length := List.length_pos.mpr hne
              omega) false cs hs
        · cases a with
          | nil => exact absurd rfl hne
          | cons x a' =>
            have hstep : scanG f (k + 1) b ((x :: a') ++ cs) =
                rep ++ scanG f k false rest2 := by
              show (match f b (x :: (a' ++ cs)) with
                | some (rep, rest2) => rep ++ scanG f k false rest2
                | none => x :: scanG f k (x == '\n') (a' ++ cs)) = _
              rw [show f b (x :: (a' ++ cs)) = some (rep, rest2) by
                simpa using hsome]
            rw [hstep]
            exact hrep.append (ihf k (by omega) false rest2 hrest2)

/-! ## Decomposition lemmas for the matchers -/

/-- A successful lazy capture decomposes its input as
`capture-tail ++ closer ++ rest`. -/
theorem lazyGo_some (closer : List Char) (dotAll : Bool) :
    ∀ (input acc cap rest2 : List Char),
      lazyGo closer dotAll input acc = some (cap, rest2) →
      ∃ d, input = d ++ (closer ++ rest2) ∧ cap = acc.reverse ++ d := by
  intro input
  induction input with
  | nil =>
    intro acc cap rest2 h
    simp only [lazyGo] at h
    by_cases hp : closer.isPrefixOf [] = true
    · rw [if_pos hp] at h
      have hcl : closer = [] := List.prefix_nil.mp (List.isPrefixOf_iff_prefix.mp hp)
      injection h with h1
      injection h1 with h2 h3
      exact ⟨[], by simp [hcl, ← h3], by simp [h2]⟩
    · rw [if_neg hp] at h
      exact absurd h (by simp)
  | cons x t ih =>
    intro acc cap rest2 h
    simp only [lazyGo] at h
    by_cases hp : closer.isPrefixOf (x :: t) = true
    · rw [if_pos hp] at h
      obtain ⟨r, hr⟩ := List.isPrefixOf_iff_prefix.mp hp
      injection h with h1
      injection h1 with h2 h3
      refine ⟨[], ?_, by simp [h2]⟩
      rw [List.nil_append, ← hr, ← h3, ← hr, List.drop_left]
    · rw [if_neg hp] at h
      by_cases hx : (x == '\n' && !dotAll) = true
      · rw [if_pos hx] at h
        exact absurd h (by simp)
      · rw [if_neg hx] at h
        obtain ⟨d', hd1, hd2⟩ := ih (x :: acc) cap rest2 h
        exact ⟨x :: d', by simp [hd1], by simp [hd2]⟩

/-- A successful first-occurrence split decomposes the text. -/
theorem splitFirstSub_some (pat : List Char) :
    ∀ (cs pre post : List Char), splitFirstSub pat cs = some (pre, post) →
      cs = pre ++ (pat ++ post) := by
  intro cs
  induction cs with
  | nil =>
    intro pre post h
    simp only [splitFirstSub] at h
    by_cases hp : pat.isPrefixOf [] = true
    · rw [if_pos hp] at h
      have hcl : pat = [] := List.prefix_nil.mp (List.isPrefixOf_iff_prefix.mp hp)
      injection h with h1
      injection h1 with h2 h3
      simp [hcl, ← h2, ← h3]
    · rw [if_neg hp] at h
      exact absurd h (by simp)
  | cons c rest ih =>
    intro pre post h
    simp only [splitFirstSub] at h
    by_cases hp : pat.isPrefixOf (c :: rest) = true
    · rw [if_pos hp] at h
      obtain ⟨r, hr⟩ := List.isPrefixOf_iff_prefix.mp hp
      injection h with h1
      injection h1 with h2 h3
      rw [← h2, List.nil_append, ← hr, ← h3, ← hr, List.drop_left]
    · rw [if_neg hp] at h
      cases hs : splitFirstSub pat rest with
      | none => rw [hs] at h; exact absurd h (by simp)
      | some pq =>
        obtain ⟨p, q⟩ := pq
        rw [hs] at h
        injection h with h1
        injection h1 with h2 h3
        rw [← h2, ← h3]
        rw [ih p q hs]
        simp

/-- A successful last-occurrence split decomposes the text. -/
theorem splitLastSub_some (pat : List Char) (cs pre post : List Char)
    (h : splitLastSub pat cs = some (pre, post)) :
    cs = pre ++ (pat ++ post) := by
  unfold splitLastSub at h
  cases hs : splitFirstSub pat.reverse cs.reverse with
  | none => rw [hs] at h; exact absurd h (by simp)
  | some pq =>
    obtain ⟨p, q⟩ := pq
    rw [hs] at h
    injection h with h1
    injection h1 with h2 h3
    have := splitFirstSub_some pat.reverse cs.reverse p q hs
    have hrev := congrArg List.reverse this
    simp only [List.reverse_reverse, List.reverse_append] at hrev
    rw [hrev, ← h2, ← h3]
    simp

/-- Splitting a sanitized text at a `takeWhile` boundary whose predicate
fails only on one clean character: both sides are sanitized. -/
theorem sanitized_split_takeWhile {A : List (List Char)} {c0 : Char}
    (hc0 : ∀ a ∈ A, c0 ∉ a.drop 1) (p : Char → Bool)
    (hp : ∀ x, p x = false → x = c0)
    {cs : List Char} (h : Sanitized A cs) :
    Sanitized A (cs.takeWhile p) ∧ Sanitized A (cs.dropWhile p) := by
  cases hdw : cs.dropWhile p with
  | nil =>
    have htk : cs.takeWhile p = cs := by
      have := List.takeWhile_append_dropWhile (p := p) (l := cs)
      rw [hdw, List.append_nil] at this
      exact this
    rw [htk]
    exact ⟨h, Sanitized.nil⟩
  | cons d t =>
    have hd : d = c0 := hp d (dropWhile_head_false cs d t hdw)
    have hsplit : cs = cs.takeWhile p ++ d :: t := by
      conv_lhs => rw [← List.takeWhile_append_dropWhile (p := p) (l := cs)]
      rw [hdw]
    subst hd
    obtain ⟨h1, h2⟩ := split_at_clean hc0 h (cs.takeWhile p) t hsplit
    exact ⟨h1, h2⟩

/-- `wsContent` on sanitized text (whose fragments neither start with
whitespace nor contain a newline) returns sanitized capture and rest. -/
theorem wsContent_sanitized {A : List (List Char)}
    (hheads : ∀ a ∈ A, ∀ x, a.head? = some x → isWs x = false)
    (hnl : ∀ a ∈ A, '\n' ∉ a) :
    ∀ {cs : List Char}, Sanitized A cs →
      ∀ {content rest : List Char}, wsContent cs = some (content, rest) →
        Sanitized A content ∧ Sanitized A rest := by
  have hnl1 : ∀ a ∈ A, '\n' ∉ a.drop 1 :=
    fun a ha hmem => hnl a ha (List.mem_of_mem_drop hmem)
  intro cs h content rest hw
  unfold wsContent at hw
  by_cases h1 : (cs.takeWhile isWs).isEmpty
  · rw [if_pos h1] at hw
    exact absurd hw (by simp)
  · rw [if_neg h1] at hw
    by_cases h2 : (cs.dropWhile isWs).isEmpty
    · rw [if_pos h2] at hw
      dsimp only at hw
      cases hdw : (((cs.takeWhile isWs).drop 1).reverse.dropWhile
          (fun c => c == '\n')) with
      | nil =>
        rw [hdw] at hw
        exact absurd hw (by simp)
      | cons c t =>
        rw [hdw] at hw
        injection hw with hw1
        injection hw1 with hw2 hw3
        have hcw : isWs c = true := by
          have hmem : c ∈ ((cs.takeWhile isWs).drop 1).reverse :=
            (List.dropWhile_sublist (fun c => c == '\n')).mem
              (by rw [hdw]; exact List.mem_cons_self c t)
          rw [List.mem_reverse] at hmem
          exact List.mem_takeWhile_imp (List.mem_of_mem_drop hmem)
        constructor
        · rw [← hw2]
          exact sanitized_of_lits (by
            intro d hd
            rw [List.mem_singleton] at hd
            subst hd
            exact isWs_ne hcw)
        · rw [← hw3]
          exact sanitized_of_lits (by
            intro d hd
            rw [List.mem_reverse] at hd
            have := List.mem_takeWhile_imp hd
            rw [beq_iff_eq] at this
            subst this
            exact ⟨by decide, by decide, by decide⟩)
    · rw [if_neg h2] at hw
      injection hw with hw1
      injection hw1 with hw2 hw3
      have hafter : Sanitized A (cs.dropWhile isWs) :=
        sanitized_dropWhile isWs hheads h
      obtain ⟨hc1, hc2⟩ := sanitized_split_takeWhile hnl1
        (fun c => c != '\n') (fun x hx => by simpa using hx) hafter
      exact ⟨hw2 ▸ hc1, hw3 ▸ hc2⟩

/-! ## Matcher dispatch lemmas: when a matcher cannot fire -/

theorem headerF_none_flag (n : Nat) (cs : List Char) : headerF n false cs = none := by
  simp [headerF]

theorem headerF_none_head (n : Nat) (b : Bool) (x : Char) (t : List Char)
    (hn : 0 < n) (hx : x ≠ '#') : headerF n b (x :: t) = none := by
  cases n with
  | zero => exact absurd hn (by omega)
  | succ m =>
    have hxe : ('#' == x) = false := by simpa using fun he => hx he.symm
    simp [headerF, List.replicate_succ, List.isPrefixOf, hxe]

theorem strongF_none (m : Char) (b : Bool) (x : Char) (t : List Char)
    (hx : x ≠ m) : strongF m b (x :: t) = none := by
  have hxe : (x == m) = false := by simpa using hx
  match t with
  | [] => rfl
  | [y] => rfl
  | y :: z :: t' => simp [strongF, hxe]

theorem emF_none (m : Char) (b : Bool) (x : Char) (t : List Char)
    (hx : x ≠ m) : emF m b (x :: t) = none := by
  have hxe : (x == m) = false := by simpa using hx
  match t with
  | [] => rfl
  | y :: t' => simp [emF, hxe]

theorem codeBlockF_none (b : Bool) (x : Char) (t : List Char)
    (hx : x ≠ tick) : codeBlockF b (x :: t) = none := by
  have hxe : (x == tick) = false := by simpa using hx
  match t with
  | [] => rfl
  | [y] => rfl
  | y :: z :: t' => simp [codeBlockF, hxe]

theorem inlineCodeF_none (b : Bool) (x : Char) (t : List Char)
    (hx : x ≠ tick) : inlineCodeF b (x :: t) = none := by
  have hxe : (x == tick) = false := by simpa using hx
  simp [inlineCodeF, hxe]

theorem linkF_none (b : Bool) (x : Char) (t : List Char)
    (hx : x ≠ '[') : linkF b (x :: t) = none := by
  have hxe : (x == '[') = false := by simpa using hx
  simp [linkF, hxe]

theorem imageF_none (b : Bool) (x : Char) (t : List Char)
    (hx : x ≠ '!') : imageF b (x :: t) = none := by
  have hxe : (x == '!') = false := by simpa using hx
  match t with
  | [] => rfl
  | y :: t' => simp [imageF, hxe]

theorem hrF_none_flag (m : Char) (cs : List Char) : hrF m false cs = none := by
  match cs with
  | [] => rfl
  | [a] => rfl
  | [a, b] => rfl
  | a :: b :: c :: t => simp [hrF]

theorem hrF_none_head (m : Char) (b : Bool) (x : Char) (t : List Char)
    (hx : x ≠ m) : hrF m b (x :: t) = none := by
  have hxe : (x == m) = false := by simpa using hx
  match t with
  | [] => rfl
  | [y] => rfl
  | y :: z :: t' => simp [hrF, hxe]

theorem blockquoteF_none_flag (cs : List Char) : blockquoteF false cs = none := by
  simp [blockquoteF]

theorem blockquoteF_none_head (b : Bool) (x : Char) (t : List Char)
    (hx : x ≠ '&') : blockquoteF b (x :: t) = none := by
  have hxe : ('&' == x) = false := by simpa using fun he => hx he.symm
  simp [blockquoteF, List.isPrefixOf, hxe]

theorem ulItemF_none_flag (cs : List Char) : ulItemF false cs = none := by
  match cs with
  | [] => rfl
  | a :: t => simp [ulItemF]

theorem ulItemF_none_head (b : Bool) (x : Char) (t : List Char)
    (hx1 : x ≠ '*') (hx2 : x ≠ '-') : ulItemF b (x :: t) = none := by
  have he1 : (x == '*') = false := by simpa using hx1
  have he2 : (x == '-') = false := by simpa using hx2
  simp [ulItemF, he1, he2]

theorem olItemF_none_flag (cs : List Char) : olItemF false cs = none := by
  simp [olItemF]

theorem olItemF_none_head (b : Bool) (x : Char) (t : List Char)
    (hx : x.isDigit = false) : olItemF b (x :: t) = none := by
  cases b with
  | false => exact olItemF_none_flag _
  | true => simp [olItemF, List.takeWhile_cons, hx]

/-! ## Matcher inversion lemmas: what a successful match looks like -/

theorem sanitized_drop_replicate {A : List (List Char)} {d : Char}
    (hd : ∀ a ∈ A, a.head? ≠ some d) :
    ∀ (n : Nat) {cs : List Char},
      Sanitized A (List.replicate n d ++ cs) → Sanitized A cs := by
  intro n
  induction n with
  | zero => intro cs h; simpa using h
  | succ k ih =>
    intro cs h
    rw [List.replicate_succ, List.cons_append] at h
    exact ih (sanitized_cons_inv hd h).2

theorem strongF_some_inv (m : Char) (b : Bool) (cs rep rest2 : List Char)
    (h : strongF m b cs = some (rep, rest2)) :
    ∃ cap, cs = m :: m :: (cap ++ m :: m :: rest2) ∧
      rep = "<strong>".toList ++ cap ++ "</strong>".toList := by
  match cs with
  | [] => exact absurd h (by simp [strongF])
  | [a] => exact absurd h (by simp [strongF])
  | [a, b'] => exact absurd h (by simp [strongF])
  | m1 :: m2 :: c :: rest =>
    simp only [strongF] at h
    by_cases hc : (m1 == m && m2 == m && c != '\n') = true
    · rw [if_pos hc] at h
      obtain ⟨he1, he2⟩ : m1 = m ∧ m2 = m := by
        simp only [Bool.and_eq_true, beq_iff_eq] at hc
        exact ⟨hc.1.1, hc.1.2⟩
      cases hl : lazyGo [m, m] false rest [c] with
      | none => rw [hl] at h; exact absurd h (by simp)
      | some pr =>
        obtain ⟨cap, r2⟩ := pr
        rw [hl] at h
        injection h with h1
        injection h1 with h2 h3
        obtain ⟨d, hd1, hd2⟩ := lazyGo_some [m, m] false rest [c] cap r2 hl
        subst he1
        subst he2
        subst h3
        refine ⟨c :: d, ?_, ?_⟩
        · rw [hd1]
          simp
        · rw [← h2, hd2]
          simp
    · rw [if_neg hc] at h
      exact absurd h (by simp)

theorem emF_some_inv (m : Char) (b : Bool) (cs rep rest2 : List Char)
    (h : emF m b cs = some (rep, rest2)) :
    ∃ cap, cs = m :: (cap ++ m :: rest2) ∧
      rep = "<em>".toList ++ cap ++ "</em>".toList := by
  match cs with
  | [] => exact absurd h (by simp [emF])
  | [a] => exact absurd h (by simp [emF])
  | m1 :: c :: rest =>
    simp only [emF] at h
    by_cases hc : (m1 == m && c != '\n') = true
    · rw [if_pos hc] at h
      have he1 : m1 = m := by
        simp only [Bool.and_eq_true, beq_iff_eq] at hc
        exact hc.1
      cases hl : lazyGo [m] false rest [c] with
      | none => rw [hl] at h; exact absurd h (by simp)
      | some pr =>
        obtain ⟨cap, r2⟩ := pr
        rw [hl] at h
        injection h with h1
        injection h1 with h2 h3
        obtain ⟨d, hd1, hd2⟩ := lazyGo_some [m] false rest [c] cap r2 hl
        subst he1
        subst h3
        refine ⟨c :: d, ?_, ?_⟩
        · rw [hd1]
          simp
        · rw [← h2, hd2]
          simp
    · rw [if_neg hc] at h
      exact absurd h (by simp)

theorem codeBlockF_some_inv (b : Bool) (cs rep rest2 : List Char)
    (h : codeBlockF b cs = some (rep, rest2)) :
    ∃ cap, cs = tick :: tick :: tick :: (cap ++ tick :: tick :: tick :: rest2) ∧
      rep = "<pre><code>".toList ++ cap ++ "</code></pre>".toList := by
  match cs with
  | [] => exact absurd h (by simp [codeBlockF])
  | [a] => exact absurd h (by simp [codeBlockF])
  | [a, b'] => exact absurd h (by simp [codeBlockF])
  | m1 :: m2 :: m3 :: rest =>
    simp only [codeBlockF] at h
    by_cases hc : (m1 == tick && m2 == tick && m3 == tick) = true
    · rw [if_pos hc] at h
      obtain ⟨he1, he2, he3⟩ : m1 = tick ∧ m2 = tick ∧ m3 = tick := by
        simp only [Bool.and_eq_true, beq_iff_eq] at hc
        exact ⟨hc.1.1, hc.1.2, hc.2⟩
      cases hl : lazyGo [tick, tick, tick] true rest [] with
      | none => rw [hl] at h; exact absurd h (by simp)
      | some pr =>
        obtain ⟨cap, r2⟩ := pr
        rw [hl] at h
        injection h with h1
        injection h1 with h2 h3
        obtain ⟨d, hd1, hd2⟩ := lazyGo_some [tick, tick, tick] true rest [] cap r2 hl
        subst he1
        subst he2
        subst he3
        subst h3
        refine ⟨d, ?_, ?_⟩
        · rw [hd1]
          simp
        · rw [← h2, hd2]
          simp
    · rw [if_neg hc] at h
      exact absurd h (by simp)

theorem inlineCodeF_some_inv (b : Bool) (cs rep rest2 : List Char)
    (h : inlineCodeF b cs = some (rep, rest2)) :
    ∃ body, cs = tick :: (body ++ tick :: rest2) ∧
      rep = "<code>".toList ++ body ++ "</code>".toList := by
  match cs with
  | [] => exact absurd h (by simp [inlineCodeF])
  | m1 :: rest =>
    simp only [inlineCodeF] at h
    by_cases hm : (m1 == tick) = true
    · rw [if_pos hm] at h
      have he1 : m1 = tick := by simpa using hm
      cases hdw : rest.dropWhile (fun c => c != tick) with
      | nil => rw [hdw] at h; exact absurd h (by simp)
      | cons d r2 =>
        rw [hdw] at h
        dsimp only at h
        by_cases hb : (rest.takeWhile (fun c => c != tick)).isEmpty = true
        · rw [if_pos hb] at h
          exact absurd h (by simp)
        · rw [if_neg hb] at h
          have hd : d = tick := by
            have := dropWhile_head_false rest d r2 hdw
            simpa using this
          rw [if_pos (by simpa using hd)] at h
          injection h with h1
          injection h1 with h2 h3
          subst he1
          subst hd
          subst h3
          refine ⟨rest.takeWhile (fun c => c != tick), ?_, by rw [← h2]⟩
          have hsp : rest = rest.takeWhile (fun c => c != tick) ++ tick :: r2 := by
            conv_lhs => rw [← List.takeWhile_append_dropWhile
              (p := fun c => c != tick) (l := rest)]
            rw [hdw]
          conv_lhs => rw [hsp]
    · rw [if_neg hm] at h
      exact absurd h (by simp)

theorem linkF_some_inv (b : Bool) (cs rep rest2 : List Char)
    (h : linkF b cs = some (rep, rest2)) :
    ∃ label target,
      cs = '[' :: (label ++ ']' :: '(' :: (target ++ ')' :: rest2)) ∧
      rep = "<a href=\"".toList ++ target ++ "\" target=\"_blank\">".toList ++
        label ++ "</a>".toList := by
  match cs with
  | [] => exact absurd h (by simp [linkF])
  | m1 :: rest =>
    simp only [linkF] at h
    by_cases hm : (m1 == '[') = true
    · rw [if_pos hm] at h
      have he1 : m1 = '[' := by simpa using hm
      by_cases hl : (rest.takeWhile (fun c => c != ']')).isEmpty = true
      · rw [if_pos hl] at h
        exact absurd h (by simp)
      · rw [if_neg hl] at h
        cases hdw : rest.dropWhile (fun c => c != ']') with
        | nil => rw [hdw] at h; exact absurd h (by simp)
        | cons d r1 =>
          cases r1 with
          | nil => rw [hdw] at h; exact absurd h (by simp)
          | cons e r2 =>
            rw [hdw] at h
            dsimp only at h
            by_cases hde : (d == ']' && e == '(') = true
            · rw [if_pos hde] at h
              obtain ⟨hd, he⟩ : d = ']' ∧ e = '(' := by
                simp only [Bool.and_eq_true, beq_iff_eq] at hde
                exact hde
              by_cases ht : (r2.takeWhile (fun c => c != ')')).isEmpty = true
              · rw [if_pos ht] at h
                exact absurd h (by simp)
              · rw [if_neg ht] at h
                cases hdw2 : r2.dropWhile (fun c => c != ')') with
                | nil => rw [hdw2] at h; exact absurd h (by simp)
                | cons g r3 =>
                  rw [hdw2] at h
                  dsimp only at h
                  have hg : g = ')' := by
                    have := dropWhile_head_false r2 g r3 hdw2
                    simpa using this
                  rw [if_pos (by simpa using hg)] at h
                  injection h with h1
                  injection h1 with h2 h3
                  subst he1
                  subst hd
                  subst he
                  subst hg
                  subst h3
                  refine ⟨rest.takeWhile (fun c => c != ']'),
                    r2.takeWhile (fun c => c != ')'), ?_, by rw [← h2]⟩
                  have hr2 : r2 = r2.takeWhile (fun c => c != ')') ++ ')' :: r3 := by
                    conv_lhs => rw [← List.takeWhile_append_dropWhile
                      (p := fun c => c != ')') (l := r2)]
                    rw [hdw2]
                  have hrest : rest = rest.takeWhile (fun c => c != ']') ++
                      ']' :: '(' :: r2 := by
                    conv_lhs => rw [← List.takeWhile_append_dropWhile
                      (p := fun c => c != ']') (l := rest)]
                    rw [hdw]
                  conv_lhs => rw [hrest]
                  conv_lhs => rw [hr2]
            · rw [if_neg hde] at h
              exact absurd h (by simp)
    · rw [if_neg hm] at h
      exact absurd h (by simp)

theorem imageF_some_inv (b : Bool) (cs rep rest2 : List Char)
    (h : imageF b cs = some (rep, rest2)) :
    ∃ alt target,
      cs = '!' :: '[' :: (alt ++ ']' :: '(' :: (target ++ ')' :: rest2)) ∧
      rep = "<img src=\"".toList ++ target ++ "\" alt=\"".toList ++ alt ++
        "\" />".toList := by
  match cs with
  | [] => exact absurd h (by simp [imageF])
  | [a] => exact absurd h (by simp [imageF])
  | m1 :: m2 :: rest =>
    simp only [imageF] at h
    by_cases hm : (m1 == '!' && m2 == '[') = true
    · rw [if_pos hm] at h
      obtain ⟨he1, he2⟩ : m1 = '!' ∧ m2 = '[' := by
        simp only [Bool.and_eq_true, beq_iff_eq] at hm
        exact hm
      cases hdw : rest.dropWhile (fun c => c != ']') with
      | nil => rw [hdw] at h; exact absurd h (by simp)
      | cons d r1 =>
        cases r1 with
        | nil => rw [hdw] at h; exact absurd h (by simp)
        | cons e r2 =>
          rw [hdw] at h
          dsimp only at h
          by_cases hde : (d == ']' && e == '(') = true
          · rw [if_pos hde] at h
            obtain ⟨hd, he⟩ : d = ']' ∧ e = '(' := by
              simp only [Bool.and_eq_true, beq_iff_eq] at hde
              exact hde
            by_cases ht : (r2.takeWhile (fun c => c != ')')).isEmpty = true
            · rw [if_pos ht] at h
              exact absurd h (by simp)
            · rw [if_neg ht] at h
              cases hdw2 : r2.dropWhile (fun c => c != ')') with
              | nil => rw [hdw2] at h; exact absurd h (by simp)
              | cons g r3 =>
                rw [hdw2] at h
                dsimp only at h
                have hg : g = ')' := by
                  have := dropWhile_head_false r2 g r3 hdw2
                  simpa using this
                rw [if_pos (by simpa using hg)] at h
                injection h with h1
                injection h1 with h2 h3
                subst he1
                subst he2
                subst hd
                subst he
                subst hg
                subst h3
                refine ⟨rest.takeWhile (fun c => c != ']'),
                  r2.takeWhile (fun c => c != ')'), ?_, by rw [← h2]⟩
                have hr2 : r2 = r2.takeWhile (fun c => c != ')') ++ ')' :: r3 := by
                  conv_lhs => rw [← List.takeWhile_append_dropWhile
                    (p := fun c => c != ')') (l := r2)]
                  rw [hdw2]
                have hrest : rest = rest.takeWhile (fun c => c != ']') ++
                    ']' :: '(' :: r2 := by
                  conv_lhs => rw [← List.takeWhile_append_dropWhile
                    (p := fun c => c != ']') (l := rest)]
                  rw [hdw]
                conv_lhs => rw [hrest]
                conv_lhs => rw [hr2]
          · rw [if_neg hde] at h
            exact absurd h (by simp)
    · rw [if_neg hm] at h
      exact absurd h (by simp)

theorem hrF_some_inv (m : Char) (b : Bool) (cs rep rest2 : List Char)
    (h : hrF m b cs = some (rep, rest2)) :
    cs = m :: m :: m :: rest2 ∧ rep = "<hr>".toList := by
  match cs with
  | [] => exact absurd h (by simp [hrF])
  | [a] => exact absurd h (by simp [hrF])
  | [a, b'] => exact absurd h (by simp [hrF])
  | m1 :: m2 :: m3 :: rest =>
    simp only [hrF] at h
    by_cases hc : (b && m1 == m && m2 == m && m3 == m &&
        (rest.isEmpty || rest.head? == some '\n')) = true
    · rw [if_pos hc] at h
      obtain ⟨he1, he2, he3⟩ : m1 = m ∧ m2 = m ∧ m3 = m := by
        simp only [Bool.and_eq_true, beq_iff_eq] at hc
        exact ⟨hc.1.1.1.2, hc.1.1.2, hc.1.2⟩
      injection h with h1
      injection h1 with h2 h3
      subst he1
      subst he2
      subst he3
      subst h3
      exact ⟨rfl, h2.symm⟩
    · rw [if_neg hc] at h
      exact absurd h (by simp)

theorem headerF_some_inv (n : Nat) (b : Bool) (cs rep rest2 : List Char)
    (h : headerF n b cs = some (rep, rest2)) :
    ∃ r content, cs = List.replicate n '#' ++ r ∧
      wsContent r = some (content, rest2) ∧
      rep = '<' :: 'h' :: Char.ofNat (48 + n) :: '>' :: content ++
        ('<' :: '/' :: 'h' :: Char.ofNat (48 + n) :: '>' :: []) := by
  simp only [headerF] at h
  by_cases hc : (b && (List.replicate n '#').isPrefixOf cs) = true
  · rw [if_pos hc] at h
    have hpre : List.replicate n '#' <+: cs := by
      simp only [Bool.and_eq_true] at hc
      exact List.isPrefixOf_iff_prefix.mp hc.2
    obtain ⟨r, hr⟩ := hpre
    cases hw : wsContent (cs.drop n) with
    | none => rw [hw] at h; exact absurd h (by simp)
    | some pr =>
      obtain ⟨content, r2⟩ := pr
      rw [hw] at h
      injection h with h1
      injection h1 with h2 h3
      subst h3
      refine ⟨r, content, hr.symm, ?_, h2.symm⟩
      have hdrop : cs.drop n = r := by
        rw [← hr]
        exact List.drop_left' (by simp)
      rw [← hdrop]
      exact hw
  · rw [if_neg hc] at h
    exact absurd h (by simp)

theorem blockquoteF_some_inv (b : Bool) (cs rep rest2 : List Char)
    (h : blockquoteF b cs = some (rep, rest2)) :
    ∃ r content, cs = "&gt;".toList ++ r ∧
      wsContent r = some (content, rest2) ∧
      rep = "<blockquote>".toList ++ content ++ "</blockquote>".toList := by
  simp only [blockquoteF] at h
  by_cases hc : (b && "&gt;".toList.isPrefixOf cs) = true
  · rw [if_pos hc] at h
    have hpre : "&gt;".toList <+: cs := by
      simp only [Bool.and_eq_true] at hc
      exact List.isPrefixOf_iff_prefix.mp hc.2
    obtain ⟨r, hr⟩ := hpre
    cases hw : wsContent (cs.drop 4) with
    | none => rw [hw] at h; exact absurd h (by simp)
    | some pr =>
      obtain ⟨content, r2⟩ := pr
      rw [hw] at h
      injection h with h1
      injection h1 with h2 h3
      subst h3
      refine ⟨r, content, hr.symm, ?_, h2.symm⟩
      have hdrop : cs.drop 4 = r := by
        rw [← hr]
        exact List.drop_left' (by simp)
      rw [← hdrop]
      exact hw
  · rw [if_neg hc] at h
    exact absurd h (by simp)

theorem ulItemF_some_inv (b : Bool) (cs rep rest2 : List Char)
    (h : ulItemF b cs = some (rep, rest2)) :
    ∃ x rest content, cs = x :: rest ∧ (x = '*' ∨ x = '-') ∧
      wsContent rest = some (content, rest2) ∧
      rep = "<li>".toList ++ content ++ "</li>".toList := by
  match cs with
  | [] => exact absurd h (by simp [ulItemF])
  | m1 :: rest =>
    simp only [ulItemF] at h
    by_cases hc : (b && (m1 == '*' || m1 == '-')) = true
    · rw [if_pos hc] at h
      have hm : m1 = '*' ∨ m1 = '-' := by
        simp only [Bool.and_eq_true, Bool.or_eq_true, beq_iff_eq] at hc
        exact hc.2
      cases hw : wsContent rest with
      | none => rw [hw] at h; exact absurd h (by simp)
      | some pr =>
        obtain ⟨content, r2⟩ := pr
        rw [hw] at h
        injection h with h1
        injection h1 with h2 h3
        subst h3
        exact ⟨m1, rest, content, rfl, hm, hw, h2.symm⟩
    · rw [if_neg hc] at h
      exact absurd h (by simp)

theorem olItemF_some_inv (b : Bool) (cs rep rest2 : List Char)
    (h : olItemF b cs = some (rep, rest2)) :
    ∃ r2 content, cs.dropWhile Char.isDigit = '.' :: r2 ∧
      wsContent r2 = some (content, rest2) ∧
      rep = "<li>".toList ++ content ++ "</li>".toList := by
  simp only [olItemF] at h
  cases b with
  | false => exact absurd h (by simp)
  | true =>
    simp only [if_pos rfl] at h
    by_cases hd : (cs.takeWhile Char.isDigit).isEmpty = true
    · rw [if_pos hd] at h
      exact absurd h (by simp)
    · rw [if_neg hd] at h
      cases hdw : cs.dropWhile Char.isDigit with
      | nil => rw [hdw] at h; exact absurd h (by simp)
      | cons d r2 =>
        rw [hdw] at h
        dsimp only at h
        by_cases hdd : (d == '.') = true
        · rw [if_pos hdd] at h
          have hd' : d = '.' := by simpa using hdd
          cases hw : wsContent r2 with
          | none => rw [hw] at h; exact absurd h (by simp)
          | some pr =>
            obtain ⟨content, r3⟩ := pr
            rw [hw] at h
            injection h with h1
            injection h1 with h2 h3
            subst h3
            subst hd'
            exact ⟨r2, content, rfl, hw, h2.symm⟩
        · rw [if_neg hdd] at h
          exact absurd h (by simp)

/-! ## Per-pass preservation of the invariant -/

theorem sanitized_single_atom {A : List (List Char)} {a : List Char}
    (ha : a ∈ A) (hne : a ≠ []) : Sanitized A a := by
  have h := Sanitized.atom a [] ha hne Sanitized.nil
  rwa [List.append_nil] at h

theorem not_head_of_heads3 {A : List (List Char)}
    (h3 : ∀ a ∈ A, a.head? = some '<' ∨ a.head? = some '&' ∨ a.head? = some '"')
    {d : Char} (h1 : d ≠ '<') (h2 : d ≠ '&') (hq : d ≠ '"') :
    ∀ a ∈ A, a.head? ≠ some d := by
  intro a ha he
  rcases h3 a ha with hh | hh | hh <;> rw [he] at hh <;> injection hh with hx
  · exact h1 hx
  · exact h2 hx
  · exact hq hx

theorem ws_heads_false {A : List (List Char)}
    (h3 : ∀ a ∈ A, a.head? = some '<' ∨ a.head? = some '&' ∨ a.head? = some '"') :
    ∀ a ∈ A, ∀ x, a.head? = some x → isWs x = false := by
  intro a ha x hx
  rcases h3 a ha with hh | hh | hh <;> rw [hx] at hh <;> injection hh with he <;>
    subst he <;> decide

theorem digit_heads_false {A : List (List Char)}
    (h3 : ∀ a ∈ A, a.head? = some '<' ∨ a.head? = some '&' ∨ a.head? = some '"') :
    ∀ a ∈ A, ∀ x, a.head? = some x → Char.isDigit x = false := by
  intro a ha x hx
  rcases h3 a ha with hh | hh | hh <;> rw [hx] at hh <;> injection hh with he <;>
    subst he <;> decide

/-- Interior inertness from a trigger character that occurs in no fragment. -/
theorem inert_of_notin {f : Bool → List Char → Option (List Char × List Char)}
    {A : List (List Char)} {tr : Char}
    (hnone : ∀ b x t, x ≠ tr → f b (x :: t) = none)
    (habs : ∀ a ∈ A, tr ∉ a) :
    ∀ a ∈ A, ∀ (rest : List Char), ∀ i, 0 < i → i < a.length →
      f false (a.drop i ++ rest) = none := by
  intro a ha rest i _ hilen
  rw [List.drop_eq_getElem_cons hilen, List.cons_append]
  exact hnone false _ _ (fun he => habs a ha (he ▸ a.getElem_mem hilen))

/-- A matcher that fails on `<`-, `&`- and `"`-headed text fails on every
fragment. -/
theorem matcher_none_on_atoms {f : Bool → List Char → Option (List Char × List Char)}
    {A : List (List Char)}
    (h3 : ∀ a ∈ A, a.head? = some '<' ∨ a.head? = some '&' ∨ a.head? = some '"')
    (hlt : ∀ b t, f b ('<' :: t) = none)
    (hamp : ∀ b t, f b ('&' :: t) = none)
    (hquot : ∀ b t, f b ('"' :: t) = none) :
    ∀ a ∈ A, ∀ b (rest : List Char), f b (a ++ rest) = none := by
  intro a ha b rest
  cases a with
  | nil => rcases h3 [] ha with h | h | h <;> simp at h
  | cons x a' =>
    rw [List.cons_append]
    rcases h3 (x :: a') ha with h | h | h <;> injection h with he <;> subst he
    · exact hlt b _
    · exact hamp b _
    · exact hquot b _

/-- The bold passes (`**` and `__`) preserve the invariant, provided the
marker occurs in no fragment and the `<strong>` tags are fragments. -/
theorem pass_strong_sanitized {A : List (List Char)} (m : Char)
    (h3 : ∀ a ∈ A, a.head? = some '<' ∨ a.head? = some '&' ∨ a.head? = some '"')
    (hnoNl : ∀ a ∈ A, '\n' ∉ a)
    (habs : ∀ a ∈ A, m ∉ a)
    (hm1 : m ≠ '<') (hm2 : m ≠ '&') (hm3 : m ≠ '"')
    (hso : "<strong>".toList ∈ A) (hsc : "</strong>".toList ∈ A) :
    ∀ cs, Sanitized A cs → Sanitized A (runPass (strongF m) cs) := by
  have hheadm : ∀ a ∈ A, a.head? ≠ some m := not_head_of_heads3 h3 hm1 hm2 hm3
  have htail : ∀ a ∈ A, m ∉ a.drop 1 :=
    fun a ha hmem => habs a ha (List.mem_of_mem_drop hmem)
  intro cs h
  refine scanG_preserves (strongF m) A A (fun a ha => ha) hnoNl ?_ ?_ ?_ _ true cs h
  · intro a ha b rest _
    exact Or.inl (matcher_none_on_atoms h3
      (fun b t => strongF_none m b '<' t (fun he => hm1 he.symm))
      (fun b t => strongF_none m b '&' t (fun he => hm2 he.symm))
      (fun b t => strongF_none m b '"' t (fun he => hm3 he.symm)) a ha b rest)
  · exact inert_of_notin (fun b x t hx => strongF_none m b x t hx) habs
  · intro b c cs' hc1 hc2 hc3 hsan
    cases hf : strongF m b (c :: cs') with
    | none => exact Or.inl rfl
    | some pr =>
      obtain ⟨rep, rest2⟩ := pr
      obtain ⟨cap, hshape, hrep⟩ := strongF_some_inv m b _ rep rest2 hf
      injection hshape with he1 he2
      subst he1
      rw [he2] at hsan
      have hs1 := (sanitized_cons_inv hheadm hsan).2
      have hs2 := (sanitized_cons_inv hheadm hs1).2
      obtain ⟨hcap, hrest⟩ := split_at_clean htail hs2 cap (c :: rest2) rfl
      have hs3 := (sanitized_cons_inv hheadm hrest).2
      have hs4 := (sanitized_cons_inv hheadm hs3).2
      refine Or.inr ⟨rep, rest2, rfl, ?_, hs4⟩
      rw [hrep]
      exact (Sanitized.append (sanitized_single_atom hso (by decide)) hcap).append
        (sanitized_single_atom hsc (by decide))

/-- The italic passes (`*` and `_`) preserve the invariant. -/
theorem pass_em_sanitized {A : List (List Char)} (m : Char)
    (h3 : ∀ a ∈ A, a.head? = some '<' ∨ a.head? = some '&' ∨ a.head? = some '"')
    (hnoNl : ∀ a ∈ A, '\n' ∉ a)
    (habs : ∀ a ∈ A, m ∉ a)
    (hm1 : m ≠ '<') (hm2 : m ≠ '&') (hm3 : m ≠ '"')
    (heo : "<em>".toList ∈ A) (hec : "</em>".toList ∈ A) :
    ∀ cs, Sanitized A cs → Sanitized A (runPass (emF m) cs) := by
  have hheadm : ∀ a ∈ A, a.head? ≠ some m := not_head_of_heads3 h3 hm1 hm2 hm3
  have htail : ∀ a ∈ A, m ∉ a.drop 1 :=
    fun a ha hmem => habs a ha (List.mem_of_mem_drop hmem)
  intro cs h
  refine scanG_preserves (emF m) A A (fun a ha => ha) hnoNl ?_ ?_ ?_ _ true cs h
  · intro a ha b rest _
    exact Or.inl (matcher_none_on_atoms h3
      (fun b t => emF_none m b '<' t (fun he => hm1 he.symm))
      (fun b t => emF_none m b '&' t (fun he => hm2 he.symm))
      (fun b t => emF_none m b '"' t (fun he => hm3 he.symm)) a ha b rest)
  · exact inert_of_notin (fun b x t hx => emF_none m b x t hx) habs
  · intro b c cs' hc1 hc2 hc3 hsan
    cases hf : emF m b (c :: cs') with
    | none => exact Or.inl rfl
    | some pr =>
      obtain ⟨rep, rest2⟩ := pr
      obtain ⟨cap, hshape, hrep⟩ := emF_some_inv m b _ rep rest2 hf
      injection hshape with he1 he2
      subst he1
      rw [he2] at hsan
      have hs1 := (sanitized_cons_inv hheadm hsan).2
      obtain ⟨hcap, hrest⟩ := split_at_clean htail hs1 cap rest2 rfl
      have hs3 := (sanitized_cons_inv hheadm hrest).2
      refine Or.inr ⟨rep, rest2, rfl, ?_, hs3⟩
      rw [hrep]
      exact (Sanitized.append (sanitized_single_atom heo (by decide)) hcap).append
        (sanitized_single_atom hec (by decide))

/-- The fenced-code pass preserves the invariant. -/
theorem pass_codeblock_sanitized {A : List (List Char)}
    (h3 : ∀ a ∈ A, a.head? = some '<' ∨ a.head? = some '&' ∨ a.head? = some '"')
    (hnoNl : ∀ a ∈ A, '\n' ∉ a)
    (habs : ∀ a ∈ A, tick ∉ a)
    (hpo : "<pre>".toList ∈ A) (hco : "<code>".toList ∈ A)
    (hcc : "</code>".toList ∈ A) (hpc : "</pre>".toList ∈ A) :
    ∀ cs, Sanitized A cs → Sanitized A (runPass codeBlockF cs) := by
  have hheadm : ∀ a ∈ A, a.head? ≠ some tick :=
    not_head_of_heads3 h3 (by decide) (by decide) (by decide)
  have htail : ∀ a ∈ A, tick ∉ a.drop 1 :=
    fun a ha hmem => habs a ha (List.mem_of_mem_drop hmem)
  intro cs h
  refine scanG_preserves codeBlockF A A (fun a ha => ha) hnoNl ?_ ?_ ?_ _ true cs h
  · intro a ha b rest _
    exact Or.inl (matcher_none_on_atoms h3
      (fun b t => codeBlockF_none b '<' t (by decide))
      (fun b t => codeBlockF_none b '&' t (by decide))
      (fun b t => codeBlockF_none b '"' t (by decide)) a ha b rest)
  · exact inert_of_notin (fun b x t hx => codeBlockF_none b x t hx) habs
  · intro b c cs' hc1 hc2 hc3 hsan
    cases hf : codeBlockF b (c :: cs') with
    | none => exact Or.inl rfl
    | some pr =>
      obtain ⟨rep, rest2⟩ := pr
      obtain ⟨cap, hshape, hrep⟩ := codeBlockF_some_inv b _ rep rest2 hf
      injection hshape with he1 he2
      subst he1
      rw [he2] at hsan
      have hs1 := (sanitized_cons_inv hheadm hsan).2
      have hs2 := (sanitized_cons_inv hheadm hs1).2
      have hs2b := (sanitized_cons_inv hheadm hs2).2
      obtain ⟨hcap, hrest⟩ := split_at_clean htail hs2b cap (tick :: tick :: rest2) rfl
      have hs3 := (sanitized_cons_inv hheadm hrest).2
      have hs4 := (sanitized_cons_inv hheadm hs3).2
      have hs5 := (sanitized_cons_inv hheadm hs4).2
      refine Or.inr ⟨rep, rest2, rfl, ?_, hs5⟩
      rw [hrep, show "<pre><code>".toList = "<pre>".toList ++ "<code>".toList from rfl,
        show "</code></pre>".toList = "</code>".toList ++ "</pre>".toList from rfl]
      refine (((sanitized_single_atom hpo (by decide)).append
        (sanitized_single_atom hco (by decide))).append hcap).append
        ((sanitized_single_atom hcc (by decide)).append
          (sanitized_single_atom hpc (by decide)))

/-- The inline-code pass preserves the invariant. -/
theorem pass_inlinecode_sanitized {A : List (List Char)}
    (h3 : ∀ a ∈ A, a.head? = some '<' ∨ a.head? = some '&' ∨ a.head? = some '"')
    (hnoNl : ∀ a ∈ A, '\n' ∉ a)
    (habs : ∀ a ∈ A, tick ∉ a)
    (hco : "<code>".toList ∈ A) (hcc : "</code>".toList ∈ A) :
    ∀ cs, Sanitized A cs → Sanitized A (runPass inlineCodeF cs) := by
  have hheadm : ∀ a ∈ A, a.head? ≠ some tick :=
    not_head_of_heads3 h3 (by decide) (by decide) (by decide)
  have htail : ∀ a ∈ A, tick ∉ a.drop 1 :=
    fun a ha hmem => habs a ha (List.mem_of_mem_drop hmem)
  intro cs h
  refine scanG_preserves inlineCodeF A A (fun a ha => ha) hnoNl ?_ ?_ ?_ _ true cs h
  · intro a ha b rest _
    exact Or.inl (matcher_none_on_atoms h3
      (fun b t => inlineCodeF_none b '<' t (by decide))
      (fun b t => inlineCodeF_none b '&' t (by decide))
      (fun b t => inlineCodeF_none b '"' t (by decide)) a ha b rest)
  · exact inert_of_notin (fun b x t hx => inlineCodeF_none b x t hx) habs
  · intro b c cs' hc1 hc2 hc3 hsan
    cases hf : inlineCodeF b (c :: cs') with
    | none => exact Or.inl rfl
    | some pr =>
      obtain ⟨rep, rest2⟩ := pr
      obtain ⟨body, hshape, hrep⟩ := inlineCodeF_some_inv b _ rep rest2 hf
      injection hshape with he1 he2
      subst he1
      rw [he2] at hsan
      have hs1 := (sanitized_cons_inv hheadm hsan).2
      obtain ⟨hbody, hrest⟩ := split_at_clean htail hs1 body rest2 rfl
      have hs2 := (sanitized_cons_inv hheadm hrest).2
      refine Or.inr ⟨rep, rest2, rfl, ?_, hs2⟩
      rw [hrep]
      exact ((sanitized_single_atom hco (by decide)).append hbody).append
        (sanitized_single_atom hcc (by decide))

/-- The link pass preserves the invariant. -/
theorem pass_link_sanitized {A : List (List Char)}
    (h3 : ∀ a ∈ A, a.head? = some '<' ∨ a.head? = some '&' ∨ a.head? = some '"')
    (hnoNl : ∀ a ∈ A, '\n' ∉ a)
    (hlb : ∀ a ∈ A, '[' ∉ a) (hrb : ∀ a ∈ A, ']' ∉ a)
    (hrp : ∀ a ∈ A, ')' ∉ a)
    (hao : "<a href=\"".toList ∈ A) (ham : "\" target=\"_blank\">".toList ∈ A)
    (hac : "</a>".toList ∈ A) :
    ∀ cs, Sanitized A cs → Sanitized A (runPass linkF cs) := by
  have hheadR : ∀ a ∈ A, a.head? ≠ some ']' :=
    not_head_of_heads3 h3 (by decide) (by decide) (by decide)
  have hheadP : ∀ a ∈ A, a.head? ≠ some '(' :=
    not_head_of_heads3 h3 (by decide) (by decide) (by decide)
  have hheadQ : ∀ a ∈ A, a.head? ≠ some ')' :=
    not_head_of_heads3 h3 (by decide) (by decide) (by decide)
  have hheadL : ∀ a ∈ A, a.head? ≠ some '[' :=
    not_head_of_heads3 h3 (by decide) (by decide) (by decide)
  have htailR : ∀ a ∈ A, ']' ∉ a.drop 1 :=
    fun a ha hmem => hrb a ha (List.mem_of_mem_drop hmem)
  have htailQ : ∀ a ∈ A, ')' ∉ a.drop 1 :=
    fun a ha hmem => hrp a ha (List.mem_of_mem_drop hmem)
  intro cs h
  refine scanG_preserves linkF A A (fun a ha => ha) hnoNl ?_ ?_ ?_ _ true cs h
  · intro a ha b rest _
    exact Or.inl (matcher_none_on_atoms h3
      (fun b t => linkF_none b '<' t (by decide))
      (fun b t => linkF_none b '&' t (by decide))
      (fun b t => linkF_none b '"' t (by decide)) a ha b rest)
  · exact inert_of_notin (fun b x t hx => linkF_none b x t hx) hlb
  · intro b c cs' hc1 hc2 hc3 hsan
    cases hf : linkF b (c :: cs') with
    | none => exact Or.inl rfl
    | some pr =>
      obtain ⟨rep, rest2⟩ := pr
      obtain ⟨label, target, hshape, hrep⟩ := linkF_some_inv b _ rep rest2 hf
      injection hshape with he1 he2
      subst he1
      rw [he2] at hsan
      have hs1 := (sanitized_cons_inv hheadL hsan).2
      obtain ⟨hlabel, hrest⟩ := split_at_clean htailR hs1 label
        ('(' :: (target ++ ')' :: rest2)) rfl
      have hs2 := (sanitized_cons_inv hheadR hrest).2
      have hs3 := (sanitized_cons_inv hheadP hs2).2
      obtain ⟨htarget, hrest2⟩ := split_at_clean htailQ hs3 target rest2 rfl
      have hs4 := (sanitized_cons_inv hheadQ hrest2).2
      refine Or.inr ⟨rep, rest2, rfl, ?_, hs4⟩
      rw [hrep]
      exact ((((sanitized_single_atom hao (by decide)).append htarget).append
        (sanitized_single_atom ham (by decide))).append hlabel).append
        (sanitized_single_atom hac (by decide))

/-- The image pass preserves the invariant. -/
theorem pass_image_sanitized {A : List (List Char)}
    (h3 : ∀ a ∈ A, a.head? = some '<' ∨ a.head? = some '&' ∨ a.head? = some '"')
    (hnoNl : ∀ a ∈ A, '\n' ∉ a)
    (hexc : ∀ a ∈ A, '!' ∉ a) (hrb : ∀ a ∈ A, ']' ∉ a)
    (hrp : ∀ a ∈ A, ')' ∉ a)
    (hio : "<img src=\"".toList ∈ A) (him : "\" alt=\"".toList ∈ A)
    (hic : "\" />".toList ∈ A) :
    ∀ cs, Sanitized A cs → Sanitized A (runPass imageF cs) := by
  have hheadR : ∀ a ∈ A, a.head? ≠ some ']' :=
    not_head_of_heads3 h3 (by decide) (by decide) (by decide)
  have hheadP : ∀ a ∈ A, a.head? ≠ some '(' :=
    not_head_of_heads3 h3 (by decide) (by decide) (by decide)
  have hheadQ : ∀ a ∈ A, a.head? ≠ some ')' :=
    not_head_of_heads3 h3 (by decide) (by decide) (by decide)
  have hheadE : ∀ a ∈ A, a.head? ≠ some '!' :=
    not_head_of_heads3 h3 (by decide) (by decide) (by decide)
  have hheadLb : ∀ a ∈ A, a.head? ≠ some '[' :=
    not_head_of_heads3 h3 (by decide) (by decide) (by decide)
  have htailR : ∀ a ∈ A, ']' ∉ a.drop 1 :=
    fun a ha hmem => hrb a ha (List.mem_of_mem_drop hmem)
  have htailQ : ∀ a ∈ A, ')' ∉ a.drop 1 :=
    fun a ha hmem => hrp a ha (List.mem_of_mem_drop hmem)
  intro cs h
  refine scanG_preserves imageF A A (fun a ha => ha) hnoNl ?_ ?_ ?_ _ true cs h
  · intro a ha b rest _
    exact Or.inl (matcher_none_on_atoms h3
      (fun b t => imageF_none b '<' t (by decide))
      (fun b t => imageF_none b '&' t (by decide))
      (fun b t => imageF_none b '"' t (by decide)) a ha b rest)
  · exact inert_of_notin (fun b x t hx => imageF_none b x t hx) hexc
  · intro b c cs' hc1 hc2 hc3 hsan
    cases hf : imageF b (c :: cs') with
    | none => exact Or.inl rfl
    | some pr =>
      obtain ⟨rep, rest2⟩ := pr
      obtain ⟨alt, target, hshape, hrep⟩ := imageF_some_inv b _ rep rest2 hf
      injection hshape with he1 he2
      subst he1
      rw [he2] at hsan
      have hs1 := (sanitized_cons_inv hheadE hsan).2
      have hs1b := (sanitized_cons_inv hheadLb hs1).2
      obtain ⟨halt, hrest⟩ := split_at_clean htailR hs1b alt
        ('(' :: (target ++ ')' :: rest2)) rfl
      have hs2 := (sanitized_cons_inv hheadR hrest).2
      have hs3 := (sanitized_cons_inv hheadP hs2).2
      obtain ⟨htarget, hrest2⟩ := split_at_clean htailQ hs3 target rest2 rfl
      have hs4 := (sanitized_cons_inv hheadQ hrest2).2
      refine Or.inr ⟨rep, rest2, rfl, ?_, hs4⟩
      rw [hrep]
      exact ((((sanitized_single_atom hio (by decide)).append htarget).append
        (sanitized_single_atom him (by decide))).append halt).append
        (sanitized_single_atom hic (by decide))

/-- The horizontal-rule passes preserve the invariant. -/
theorem pass_hr_sanitized {A : List (List Char)} (m : Char)
    (h3 : ∀ a ∈ A, a.head? = some '<' ∨ a.head? = some '&' ∨ a.head? = some '"')
    (hnoNl : ∀ a ∈ A, '\n' ∉ a)
    (hm1 : m ≠ '<') (hm2 : m ≠ '&') (hm3 : m ≠ '"')
    (hhr : "<hr>".toList ∈ A) :
    ∀ cs, Sanitized A cs → Sanitized A (runPass (hrF m) cs) := by
  have hheadm : ∀ a ∈ A, a.head? ≠ some m := not_head_of_heads3 h3 hm1 hm2 hm3
  intro cs h
  refine scanG_preserves (hrF m) A A (fun a ha => ha) hnoNl ?_ ?_ ?_ _ true cs h
  · intro a ha b rest _
    exact Or.inl (matcher_none_on_atoms h3
      (fun b t => hrF_none_head m b '<' t (fun he => hm1 he.symm))
      (fun b t => hrF_none_head m b '&' t (fun he => hm2 he.symm))
      (fun b t => hrF_none_head m b '"' t (fun he => hm3 he.symm)) a ha b rest)
  · intro a ha rest i hi0 hilen
    exact hrF_none_flag m _
  · intro b c cs' hc1 hc2 hc3 hsan
    cases hf : hrF m b (c :: cs') with
    | none => exact Or.inl rfl
    | some pr =>
      obtain ⟨rep, rest2⟩ := pr
      obtain ⟨hshape, hrep⟩ := hrF_some_inv m b _ rep rest2 hf
      injection hshape with he1 he2
      subst he1
      rw [he2] at hsan
      have hs1 := (sanitized_cons_inv hheadm hsan).2
      have hs2 := (sanitized_cons_inv hheadm hs1).2
      have hs3 := (sanitized_cons_inv hheadm hs2).2
      refine Or.inr ⟨rep, rest2, rfl, ?_, hs3⟩
      rw [hrep]
      exact sanitized_single_atom hhr (by decide)

/-- Interior inertness for a matcher with two trigger characters. -/
theorem inert_of_notin2 {f : Bool → List Char → Option (List Char × List Char)}
    {A : List (List Char)} {t1 t2 : Char}
    (hnone : ∀ b x t, x ≠ t1 → x ≠ t2 → f b (x :: t) = none)
    (habs1 : ∀ a ∈ A, t1 ∉ a) (habs2 : ∀ a ∈ A, t2 ∉ a) :
    ∀ a ∈ A, ∀ (rest : List Char), ∀ i, 0 < i → i < a.length →
      f false (a.drop i ++ rest) = none := by
  intro a ha rest i _ hilen
  rw [List.drop_eq_getElem_cons hilen, List.cons_append]
  exact hnone false _ _
    (fun he => habs1 a ha (he ▸ a.getElem_mem hilen))
    (fun he => habs2 a ha (he ▸ a.getElem_mem hilen))

/-- The header passes preserve the invariant (for each marker length with its
tags among the fragments). -/
theorem pass_header_sanitized {A : List (List Char)} (n : Nat) (hn : 0 < n)
    (h3 : ∀ a ∈ A, a.head? = some '<' ∨ a.head? = some '&' ∨ a.head? = some '"')
    (hnoNl : ∀ a ∈ A, '\n' ∉ a)
    (hop : ('<' :: 'h' :: Char.ofNat (48 + n) :: '>' :: []) ∈ A)
    (hcl : ('<' :: '/' :: 'h' :: Char.ofNat (48 + n) :: '>' :: []) ∈ A) :
    ∀ cs, Sanitized A cs → Sanitized A (runPass (headerF n) cs) := by
  have hheadH : ∀ a ∈ A, a.head? ≠ some '#' :=
    not_head_of_heads3 h3 (by decide) (by decide) (by decide)
  intro cs h
  refine scanG_preserves (headerF n) A A (fun a ha => ha) hnoNl ?_ ?_ ?_ _ true cs h
  · intro a ha b rest _
    exact Or.inl (matcher_none_on_atoms h3
      (fun b t => headerF_none_head n b '<' t hn (by decide))
      (fun b t => headerF_none_head n b '&' t hn (by decide))
      (fun b t => headerF_none_head n b '"' t hn (by decide)) a ha b rest)
  · intro a ha rest i hi0 hilen
    exact headerF_none_flag n _
  · intro b c cs' hc1 hc2 hc3 hsan
    cases hf : headerF n b (c :: cs') with
    | none => exact Or.inl rfl
    | some pr =>
      obtain ⟨rep, rest2⟩ := pr
      obtain ⟨r, content, hshape, hws, hrep⟩ := headerF_some_inv n b _ rep rest2 hf
      have hsr : Sanitized A r := by
        rw [hshape] at hsan
        exact sanitized_drop_replicate hheadH n hsan
      obtain ⟨hcontent, hrest2⟩ :=
        wsContent_sanitized (ws_heads_false h3) hnoNl hsr hws
      refine Or.inr ⟨rep, rest2, rfl, ?_, hrest2⟩
      rw [hrep]
      show Sanitized A (('<' :: 'h' :: Char.ofNat (48 + n) :: '>' :: []) ++
        (content ++ ('<' :: '/' :: 'h' :: Char.ofNat (48 + n) :: '>' :: [])))
      exact (sanitized_single_atom hop (by simp)).append
        (hcontent.append (sanitized_single_atom hcl (by simp)))

/-- Interior inertness from a trigger character that occurs in no fragment
beyond its head position. -/
theorem inert_of_notin_tail
    {f : Bool → List Char → Option (List Char × List Char)}
    {A : List (List Char)} {tr : Char}
    (hnone : ∀ b x t, x ≠ tr → f b (x :: t) = none)
    (habs : ∀ a ∈ A, tr ∉ a.drop 1) :
    ∀ a ∈ A, ∀ (rest : List Char), ∀ i, 0 < i → i < a.length →
      f false (a.drop i ++ rest) = none := by
  intro a ha rest i hi0 hilen
  rw [List.drop_eq_getElem_cons hilen, List.cons_append]
  refine hnone false _ _ (fun he => habs a ha ?_)
  rw [List.mem_iff_getElem]
  have hidx : 1 + (i - 1) = i := by omega
  refine ⟨i - 1, by simp [List.length_drop]; omega, ?_⟩
  rw [List.getElem_drop]
  simp only [hidx]
  exact he

/-- The blockquote pass preserves the invariant: its marker is the whole
`&gt;` entity, which it consumes as a unit. -/
theorem pass_blockquote_sanitized {A : List (List Char)}
    (h3 : ∀ a ∈ A, a.head? = some '<' ∨ a.head? = some '&' ∨ a.head? = some '"')
    (hnoNl : ∀ a ∈ A, '\n' ∉ a)
    (hamp : ∀ a ∈ A, '&' ∉ a.drop 1)
    (hent : ∀ a ∈ A, a.head? = some '&' →
      a = "&amp;".toList ∨ a = "&lt;".toList ∨ a = "&gt;".toList)
    (hbo : "<blockquote>".toList ∈ A) (hbc : "</blockquote>".toList ∈ A) :
    ∀ cs, Sanitized A cs → Sanitized A (runPass blockquoteF cs) := by
  intro cs h
  refine scanG_preserves blockquoteF A A (fun a ha => ha) hnoNl ?_ ?_ ?_ _ true cs h
  · intro a ha b rest hrest
    cases hf : blockquoteF b (a ++ rest) with
    | none => exact Or.inl rfl
    | some pr =>
      obtain ⟨rep, rest2⟩ := pr
      obtain ⟨r, content, hshape, hws, hrep⟩ := blockquoteF_some_inv b _ rep rest2 hf
      -- the consumed marker `&gt;` is exactly the fragment `a` at the head:
      -- any other fragment disagrees with `&gt;` on its first characters
      have har : a = "&gt;".toList ∧ r = rest := by
        cases a with
        | nil => rcases h3 [] ha with hh | hh | hh <;> simp at hh
        | cons x a' =>
          rw [List.cons_append] at hshape
          rcases h3 (x :: a') ha with hh | hh | hh <;> injection hh with hx <;> subst hx
          · exact absurd hshape (by intro hq; injection hq with h1 _; exact absurd h1 (by decide))
          · rcases hent _ ha rfl with he | he | he
            · exfalso
              have := he
              injection this with _ ha'
              subst ha'
              rw [List.cons_append] at hshape
              injection hshape with _ h2
              injection h2 with h3' _
              exact absurd h3' (by decide)
            · exfalso
              have := he
              injection this with _ ha'
              subst ha'
              rw [List.cons_append] at hshape
              injection hshape with _ h2
              injection h2 with h3' _
              exact absurd h3' (by decide)
            · have := he
              injection this with _ ha'
              subst ha'
              simp only [List.cons_append] at hshape
              injection hshape with _ h2
              injection h2 with _ h3'
              injection h3' with _ h4
              injection h4 with _ h5
              exact ⟨rfl, h5.symm⟩
          · exact absurd hshape (by intro hq; injection hq with h1 _; exact absurd h1 (by decide))
      obtain ⟨hcontent, hrest2⟩ :=
        wsContent_sanitized (ws_heads_false h3) hnoNl (har.2 ▸ hrest) hws
      refine Or.inr ⟨rep, rest2, rfl, ?_, hrest2⟩
      rw [hrep]
      exact ((sanitized_single_atom hbo (by decide)).append hcontent).append
        (sanitized_single_atom hbc (by decide))
  · exact inert_of_notin_tail
      (fun b x t hx => blockquoteF_none_head b x t hx) hamp
  · intro b c cs' hc1 hc2 hc3 hsan
    exact Or.inl (blockquoteF_none_head b c cs' hc1)

/-- The unordered-list item pass preserves the invariant. -/
theorem pass_ulitem_sanitized {A : List (List Char)}
    (h3 : ∀ a ∈ A, a.head? = some '<' ∨ a.head? = some '&' ∨ a.head? = some '"')
    (hnoNl : ∀ a ∈ A, '\n' ∉ a)
    (hst : ∀ a ∈ A, '*' ∉ a) (hda : ∀ a ∈ A, '-' ∉ a)
    (hlo : "<li>".toList ∈ A) (hlc : "</li>".toList ∈ A) :
    ∀ cs, Sanitized A cs → Sanitized A (runPass ulItemF cs) := by
  intro cs h
  refine scanG_preserves ulItemF A A (fun a ha => ha) hnoNl ?_ ?_ ?_ _ true cs h
  · intro a ha b rest _
    exact Or.inl (matcher_none_on_atoms h3
      (fun b t => ulItemF_none_head b '<' t (by decide) (by decide))
      (fun b t => ulItemF_none_head b '&' t (by decide) (by decide))
      (fun b t => ulItemF_none_head b '"' t (by decide) (by decide)) a ha b rest)
  · exact inert_of_notin2
      (fun b x t hx1 hx2 => ulItemF_none_head b x t hx1 hx2) hst hda
  · intro b c cs' hc1 hc2 hc3 hsan
    cases hf : ulItemF b (c :: cs') with
    | none => exact Or.inl rfl
    | some pr =>
      obtain ⟨rep, rest2⟩ := pr
      obtain ⟨x, rest', content, hshape, hx, hws, hrep⟩ :=
        ulItemF_some_inv b _ rep rest2 hf
      injection hshape with he1 he2
      subst he2
      rw [← he1] at hx
      have hhc : ∀ a ∈ A, a.head? ≠ some c := by
        rcases hx with he | he
        · rw [he]
          exact not_head_of_heads3 h3 (by decide) (by decide) (by decide)
        · rw [he]
          exact not_head_of_heads3 h3 (by decide) (by decide) (by decide)
      have hs1 := (sanitized_cons_inv hhc hsan).2
      obtain ⟨hcontent, hrest2⟩ :=
        wsContent_sanitized (ws_heads_false h3) hnoNl hs1 hws
      refine Or.inr ⟨rep, rest2, rfl, ?_, hrest2⟩
      rw [hrep]
      exact ((sanitized_single_atom hlo (by decide)).append hcontent).append
        (sanitized_single_atom hlc (by decide))

/-- The ordered-list item pass preserves the invariant. -/
theorem pass_olitem_sanitized {A : List (List Char)}
    (h3 : ∀ a ∈ A, a.head? = some '<' ∨ a.head? = some '&' ∨ a.head? = some '"')
    (hnoNl : ∀ a ∈ A, '\n' ∉ a)
    (hlo : "<li>".toList ∈ A) (hlc : "</li>".toList ∈ A) :
    ∀ cs, Sanitized A cs → Sanitized A (runPass olItemF cs) := by
  intro cs h
  refine scanG_preserves olItemF A A (fun a ha => ha) hnoNl ?_ ?_ ?_ _ true cs h
  · intro a ha b rest _
    exact Or.inl (matcher_none_on_atoms h3
      (fun b t => olItemF_none_head b '<' t (by decide))
      (fun b t => olItemF_none_head b '&' t (by decide))
      (fun b t => olItemF_none_head b '"' t (by decide)) a ha b rest)
  · intro a ha rest i hi0 hilen
    exact olItemF_none_flag _
  · intro b c cs' hc1 hc2 hc3 hsan
    cases hf : olItemF b (c :: cs') with
    | none => exact Or.inl rfl
    | some pr =>
      obtain ⟨rep, rest2⟩ := pr
      obtain ⟨r2, content, hdw, hws, hrep⟩ := olItemF_some_inv b _ rep rest2 hf
      have hs1 : Sanitized A ('.' :: r2) := by
        rw [← hdw]
        exact sanitized_dropWhile Char.isDigit (digit_heads_false h3) hsan
      have hheadDot : ∀ a ∈ A, a.head? ≠ some '.' :=
        not_head_of_heads3 h3 (by decide) (by decide) (by decide)
      have hs2 := (sanitized_cons_inv hheadDot hs1).2
      obtain ⟨hcontent, hrest2⟩ :=
        wsContent_sanitized (ws_heads_false h3) hnoNl hs2 hws
      refine Or.inr ⟨rep, rest2, rfl, ?_, hrest2⟩
      rw [hrep]
      exact ((sanitized_single_atom hlo (by decide)).append hcontent).append
        (sanitized_single_atom hlc (by decide))

/-! ## The remaining (non-scanner) stages -/

theorem replaceChar_append (d : Char) (rep : List Char) :
    ∀ xs ys : List Char,
      replaceChar d rep (xs ++ ys) = replaceChar d rep xs ++ replaceChar d rep ys := by
  intro xs ys
  induction xs with
  | nil => rfl
  | cons x xs ih =>
    show (if x == d then rep ++ replaceChar d rep (xs ++ ys)
      else x :: replaceChar d rep (xs ++ ys)) =
      (if x == d then rep ++ replaceChar d rep xs
      else x :: replaceChar d rep xs) ++ replaceChar d rep ys
    by_cases hx : (x == d) = true
    · rw [if_pos hx, if_pos hx, ih, List.append_assoc]
    · rw [if_neg hx, if_neg hx, ih, List.cons_append]

theorem escapeHtml_append (xs ys : List Char) :
    escapeHtml (xs ++ ys) = escapeHtml xs ++ escapeHtml ys := by
  unfold escapeHtml
  rw [replaceChar_append, replaceChar_append, replaceChar_append]

/-- The escape pass yields entity-sanitized text. -/
theorem escapeHtml_sanitized (cs : List Char) :
    Sanitized entityAtoms (escapeHtml cs) := by
  induction cs with
  | nil => exact Sanitized.nil
  | cons c cs ih =>
    rw [show c :: cs = [c] ++ cs from rfl, escapeHtml_append]
    refine Sanitized.append ?_ ih
    by_cases h1 : c = '&'
    · subst h1
      exact sanitized_single_atom (by decide) (by decide)
    · by_cases h2 : c = '<'
      · subst h2
        exact sanitized_single_atom (by decide) (by decide)
      · by_cases h3 : c = '>'
        · subst h3
          exact sanitized_single_atom (by decide) (by decide)
        · have he : escapeHtml [c] = [c] := by
            have e1 : (c == '&') = false := by simpa using h1
            have e2 : (c == '<') = false := by simpa using h2
            have e3 : (c == '>') = false := by simpa using h3
            simp [escapeHtml, replaceChar, e1, e2, e3]
          rw [he]
          exact Sanitized.lit c [] h1 h2 h3 Sanitized.nil

/-- A sanitized text beginning with `<` begins with a whole fragment. -/
theorem sanitized_lt_inv {A : List (List Char)} {ys : List Char}
    (h : Sanitized A ('<' :: ys)) :
    ∃ a, a ∈ A ∧ a ≠ [] ∧ ∃ zs, '<' :: ys = a ++ zs ∧ Sanitized A zs := by
  generalize hzs : '<' :: ys = zs at h
  cases h with
  | nil => exact absurd hzs (by simp)
  | lit c cs h1 h2 h3 hs =>
    injection hzs with he _
    exact absurd he.symm h2
  | atom a cs ha hne hs => exact ⟨a, ha, hne, cs, rfl, hs⟩

/-- The single list-wrapping replacement preserves the invariant: the first
`<li>` and the last `</li>` substrings are whole fragments (no other
fragment and no plain text can produce these character sequences). -/
theorem ulWrapStage_sanitized :
    ∀ cs, Sanitized atomsLi cs → Sanitized atomsUl (ulWrapStage cs) := by
  have hsub : ∀ a ∈ atomsLi, a ∈ atomsUl := fun a ha => List.mem_append_left _ ha
  have hltTail : ∀ a ∈ atomsLi, '<' ∉ a.drop 1 := by decide
  have hlen4 : ∀ a ∈ atomsLi, 4 ≤ a.length := by decide
  have huniq1 : ∀ a ∈ atomsLi, a.take 4 = "<li>".toList → a = "<li>".toList := by decide
  have huniq2 : ∀ a ∈ atomsLi, a.take 4 = ['<', '/', 'l', 'i'] →
    a = "</li>".toList := by decide
  intro cs h
  unfold ulWrapStage
  cases hs1 : splitFirstSub "<li>".toList cs with
  | none => exact h.mono hsub
  | some pq =>
    obtain ⟨pre, post⟩ := pq
    dsimp only
    cases hs2 : splitLastSub "</li>".toList post with
    | none => exact h.mono hsub
    | some pq2 =>
      obtain ⟨mid, suf⟩ := pq2
      dsimp only
      have hd1 := splitFirstSub_some _ cs pre post hs1
      have hd2 := splitLastSub_some _ post mid suf hs2
      rw [hd1] at h
      obtain ⟨hpre, hrest⟩ := split_at_clean hltTail h pre
        ('l' :: 'i' :: '>' :: post) rfl
      obtain ⟨a, ha, hne, zs, heq, hzs⟩ := sanitized_lt_inv hrest
      have hlena := hlen4 a ha
      have htk : a.take 4 = "<li>".toList := by
        have hc := congrArg (List.take 4) heq
        rw [List.take_append_eq_append_take,
          show 4 - a.length = 0 by omega, List.take_zero, List.append_nil] at hc
        exact hc.symm
      have ha4 : a = "<li>".toList := huniq1 a ha htk
      subst ha4
      have hpost : post = zs := by
        have heq' : '<' :: 'l' :: 'i' :: '>' :: post =
            '<' :: 'l' :: 'i' :: '>' :: zs := heq
        simp only [List.cons.injEq, true_and] at heq'
        exact heq'
      subst hpost
      rw [hd2] at hzs
      obtain ⟨hmid, hrest2⟩ := split_at_clean hltTail hzs mid
        ('/' :: 'l' :: 'i' :: '>' :: suf) rfl
      obtain ⟨a2, ha2, hne2, zs2, heq2, hzs2⟩ := sanitized_lt_inv hrest2
      have hlena2 := hlen4 a2 ha2
      have htk2 : a2.take 4 = ['<', '/', 'l', 'i'] := by
        have hc := congrArg (List.take 4) heq2
        rw [List.take_append_eq_append_take,
          show 4 - a2.length = 0 by omega, List.take_zero, List.append_nil] at hc
        exact hc.symm
      have ha5 : a2 = "</li>".toList := huniq2 a2 ha2 htk2
      subst ha5
      have hsuf : suf = zs2 := by
        have heq2' : '<' :: '/' :: 'l' :: 'i' :: '>' :: suf =
            '<' :: '/' :: 'l' :: 'i' :: '>' :: zs2 := heq2
        simp only [List.cons.injEq, true_and] at heq2'
        exact heq2'
      subst hsuf
      rw [show "<ul><li>".toList = "<ul>".toList ++ "<li>".toList from rfl,
        show "</li></ul>".toList = "</li>".toList ++ "</ul>".toList from rfl]
      simp only [List.append_assoc]
      refine (hpre.mono hsub).append ?_
      refine (sanitized_single_atom (by decide) (by decide)).append ?_
      refine (sanitized_single_atom (by decide) (by decide)).append ?_
      refine (hmid.mono hsub).append ?_
      refine (sanitized_single_atom (by decide) (by decide)).append ?_
      exact (sanitized_single_atom (by decide) (by decide)).append (hzs2.mono hsub)

/-- Every segment produced by the blank-line split of a sanitized text is
sanitized (fragments contain no newline, so no fragment straddles a split). -/
theorem splitNlNl_sanitized {A : List (List Char)}
    (hnl1 : ∀ a ∈ A, '\n' ∉ a.drop 1)
    (hheadNl : ∀ a ∈ A, a.head? ≠ some '\n') :
    ∀ (n : Nat) (cs acc : List Char), cs.length ≤ n →
      Sanitized A (acc.reverse ++ cs) →
      ∀ seg ∈ splitNlNl cs acc, Sanitized A seg := by
  intro n
  induction n with
  | zero =>
    intro cs acc hlen h seg hseg
    have hcs : cs = [] := List.length_eq_zero.mp (by omega)
    subst hcs
    simp only [splitNlNl, List.mem_singleton] at hseg
    subst hseg
    simpa using h
  | succ k ih =>
    intro cs acc hlen h seg hseg
    cases cs with
    | nil =>
      simp only [splitNlNl, List.mem_singleton] at hseg
      subst hseg
      simpa using h
    | cons a cs' =>
      cases cs' with
      | nil =>
        simp only [splitNlNl, List.mem_singleton] at hseg
        subst hseg
        simpa using h
      | cons b rest =>
        by_cases hab : (a == '\n' && b == '\n') = true
        · obtain ⟨ha, hb⟩ : a = '\n' ∧ b = '\n' := by
            simp only [Bool.and_eq_true, beq_iff_eq] at hab
            exact hab
          subst ha
          subst hb
          rw [show splitNlNl ('\n' :: '\n' :: rest) acc =
            acc.reverse :: splitNlNl rest [] by rw [splitNlNl, if_pos hab]] at hseg
          obtain ⟨hacc, hnlrest⟩ := split_at_clean hnl1 h acc.reverse
            ('\n' :: rest) rfl
          have hrest : Sanitized A rest :=
            (sanitized_cons_inv hheadNl
              (sanitized_cons_inv hheadNl hnlrest).2).2
          rcases List.mem_cons.mp hseg with rfl | hseg'
          · exact hacc
          · exact ih rest [] (by simp at hlen ⊢; omega) (by simpa using hrest)
              seg hseg'
        · rw [show splitNlNl (a :: b :: rest) acc =
            splitNlNl (b :: rest) (a :: acc) by rw [splitNlNl, if_neg hab]] at hseg
          refine ih (b :: rest) (a :: acc) (by simp at hlen ⊢; omega) ?_ seg hseg
          have : (a :: acc).reverse ++ (b :: rest) =
              acc.reverse ++ (a :: b :: rest) := by simp
          rw [this]
          exact h

/-- Paragraph wrapping of a sanitized segment. -/
theorem wrapPara_sanitized {seg : List Char} (h : Sanitized atomsUl seg) :
    Sanitized atomsPara (wrapPara seg) := by
  have hsub : ∀ a ∈ atomsUl, a ∈ atomsPara := fun a ha => List.mem_append_left _ ha
  unfold wrapPara
  by_cases hb : blockStartTest seg = true
  · rw [if_pos hb]
    exact h.mono hsub
  · rw [if_neg hb]
    exact ((sanitized_single_atom (by decide) (by decide)).append
      (h.mono hsub)).append (sanitized_single_atom (by decide) (by decide))

theorem intercalateNl_sanitized {A : List (List Char)} :
    ∀ l : List (List Char), (∀ seg ∈ l, Sanitized A seg) →
      Sanitized A (intercalateNl l) := by
  intro l
  induction l with
  | nil => intro _; exact Sanitized.nil
  | cons x l ih =>
    intro hl
    cases l with
    | nil => simpa [intercalateNl] using hl x (by simp)
    | cons y l' =>
      show Sanitized A (x ++ '\n' :: intercalateNl (y :: l'))
      refine (hl x (by simp)).append
        (Sanitized.lit '\n' _ (by decide) (by decide) (by decide) ?_)
      exact ih (fun seg hseg => hl seg (List.mem_cons_of_mem _ hseg))

/-- The paragraph stage maps the invariant into its final fragment set. -/
theorem paragraphsStage_sanitized (cs : List Char)
    (h : Sanitized atomsUl cs) : Sanitized atomsPara (paragraphsStage cs) := by
  have hnl1 : ∀ a ∈ atomsUl, '\n' ∉ a.drop 1 := by decide
  have hheadNl : ∀ a ∈ atomsUl, a.head? ≠ some '\n' := by decide
  unfold paragraphsStage
  apply intercalateNl_sanitized
  intro seg hseg
  rw [List.mem_map] at hseg
  obtain ⟨seg0, hseg0, rfl⟩ := hseg
  exact wrapPara_sanitized
    (splitNlNl_sanitized hnl1 hheadNl cs.length cs [] le_rfl (by simpa using h)
      seg0 hseg0)

/-- Every pass of the pipeline preserves (and extends) the invariant, so the
whole pipeline produces sanitized text. -/
theorem pipeline_sanitized (cs : List Char) :
    Sanitized atomsPara (pipeline cs) := by
  have s1 : Sanitized atomsHead (escapeHtml cs) :=
    (escapeHtml_sanitized cs).mono (fun a ha => List.mem_append_left _ ha)
  have h3H : ∀ a ∈ atomsHead, a.head? = some '<' ∨ a.head? = some '&' ∨
      a.head? = some '"' := by decide
  have hnlH : ∀ a ∈ atomsHead, '\n' ∉ a := by decide
  have s2 : Sanitized atomsHead (headersAll (escapeHtml cs)) := by
    unfold headersAll
    refine pass_header_sanitized 1 (by omega) h3H hnlH (by decide) (by decide) _ ?_
    refine pass_header_sanitized 2 (by omega) h3H hnlH (by decide) (by decide) _ ?_
    refine pass_header_sanitized 3 (by omega) h3H hnlH (by decide) (by decide) _ ?_
    refine pass_header_sanitized 4 (by omega) h3H hnlH (by decide) (by decide) _ ?_
    refine pass_header_sanitized 5 (by omega) h3H hnlH (by decide) (by decide) _ ?_
    exact pass_header_sanitized 6 (by omega) h3H hnlH (by decide) (by decide) _ s1
  have h3S : ∀ a ∈ atomsStrong, a.head? = some '<' ∨ a.head? = some '&' ∨
      a.head? = some '"' := by decide
  have hnlS : ∀ a ∈ atomsStrong, '\n' ∉ a := by decide
  have s3 : Sanitized atomsStrong (runPass (strongF '*')
      (headersAll (escapeHtml cs))) :=
    pass_strong_sanitized '*' h3S hnlS (by decide) (by decide) (by decide)
      (by decide) (by decide) (by decide) _
      (s2.mono (fun a ha => List.mem_append_left _ ha))
  have s4 := pass_strong_sanitized '_' h3S hnlS (by decide) (by decide)
    (by decide) (by decide) (by decide) (by decide) _ s3
  have h3E : ∀ a ∈ atomsEm, a.head? = some '<' ∨ a.head? = some '&' ∨
      a.head? = some '"' := by decide
  have hnlE : ∀ a ∈ atomsEm, '\n' ∉ a := by decide
  have s5 := pass_em_sanitized '*' h3E hnlE (by decide) (by decide) (by decide)
    (by decide) (by decide) (by decide) _
    (s4.mono (fun a ha => List.mem_append_left _ ha))
  have s6 := pass_em_sanitized '_' h3E hnlE (by decide) (by decide) (by decide)
    (by decide) (by decide) (by decide) _ s5
  have h3C : ∀ a ∈ atomsCode, a.head? = some '<' ∨ a.head? = some '&' ∨
      a.head? = some '"' := by decide
  have hnlC : ∀ a ∈ atomsCode, '\n' ∉ a := by decide
  have s7 := pass_codeblock_sanitized h3C hnlC (by decide) (by decide)
    (by decide) (by decide) (by decide) _
    (s6.mono (fun a ha => List.mem_append_left _ ha))
  have s8 := pass_inlinecode_sanitized h3C hnlC (by decide) (by decide)
    (by decide) _ s7
  have h3L : ∀ a ∈ atomsLink, a.head? = some '<' ∨ a.head? = some '&' ∨
      a.head? = some '"' := by decide
  have hnlL : ∀ a ∈ atomsLink, '\n' ∉ a := by decide
  have s9 := pass_link_sanitized h3L hnlL (by decide) (by decide) (by decide)
    (by decide) (by decide) (by decide) _
    (s8.mono (fun a ha => List.mem_append_left _ ha))
  have h3I : ∀ a ∈ atomsImg, a.head? = some '<' ∨ a.head? = some '&' ∨
      a.head? = some '"' := by decide
  have hnlI : ∀ a ∈ atomsImg, '\n' ∉ a := by decide
  have s10 := pass_image_sanitized h3I hnlI (by decide) (by decide) (by decide)
    (by decide) (by decide) (by decide) _
    (s9.mono (fun a ha => List.mem_append_left _ ha))
  have h3R : ∀ a ∈ atomsHr, a.head? = some '<' ∨ a.head? = some '&' ∨
      a.head? = some '"' := by decide
  have hnlR : ∀ a ∈ atomsHr, '\n' ∉ a := by decide
  have s11 := pass_hr_sanitized '-' h3R hnlR (by decide) (by decide) (by decide)
    (by decide) _ (s10.mono (fun a ha => List.mem_append_left _ ha))
  have s12 := pass_hr_sanitized '*' h3R hnlR (by decide) (by decide) (by decide)
    (by decide) _ s11
  have h3B : ∀ a ∈ atomsBq, a.head? = some '<' ∨ a.head? = some '&' ∨
      a.head? = some '"' := by decide
  have hnlB : ∀ a ∈ atomsBq, '\n' ∉ a := by decide
  have s13 := pass_blockquote_sanitized h3B hnlB (by decide) (by decide)
    (by decide) (by decide) _ (s12.mono (fun a ha => List.mem_append_left _ ha))
  have h3Li : ∀ a ∈ atomsLi, a.head? = some '<' ∨ a.head? = some '&' ∨
      a.head? = some '"' := by decide
  have hnlLi : ∀ a ∈ atomsLi, '\n' ∉ a := by decide
  have s14 := pass_ulitem_sanitized h3Li hnlLi (by decide) (by decide)
    (by decide) (by decide) _ (s13.mono (fun a ha => List.mem_append_left _ ha))
  have s15 := ulWrapStage_sanitized _ s14
  have h3U : ∀ a ∈ atomsUl, a.head? = some '<' ∨ a.head? = some '&' ∨
      a.head? = some '"' := by decide
  have hnlU : ∀ a ∈ atomsUl, '\n' ∉ a := by decide
  have s16 := pass_olitem_sanitized h3U hnlU (by decide) (by decide) _ s15
  exact paragraphsStage_sanitized _ s16

/-! ## Claims -/

/-- C1: the escape stage turns every input-origin `&`, `<`, `>` into its
entity before any markup exists (its output is built solely from plain
characters and the three entities), and no later stage reintroduces an
unescaped occurrence: the final output of `parse` is, for every input, a
concatenation of plain characters (never a raw `&`, `<` or `>`), the three
escape entities, and whole generated markup fragments — so every remaining
`&`, `<` or `>` character belongs to an entity or to generated markup, never
to raw input text. -/
theorem c1_output_sanitized :
    (∀ cs : List Char, Sanitized entityAtoms (escapeHtml cs)) ∧
    (∀ s : String, Sanitized atomsPara (parse s).toList) := by
  refine ⟨escapeHtml_sanitized, ?_⟩
  intro s
  by_cases h : s = ""
  · have hp : parse s = "" := by rw [parse, if_pos h]
    rw [hp]
    exact Sanitized.nil
  · have hp : (parse s).toList = pipeline s.toList := by
      rw [parse, if_neg h, mk_toList]
    rw [hp]
    exact pipeline_sanitized s.toList

/-- C9: `convert("**bold** and *italic*")` returns
`<p><strong>bold</strong> and <em>italic</em></p>`; the bold pass (line 94)
runs before the italic pass (line 98), so `**bold**` becomes one `<strong>`
span instead of two italic markers. -/
theorem c9_bold_before_italic :
    parse ("**bold** and *italic*") =
      "<p><strong>bold</strong> and <em>italic</em></p>" := by
  decide

/-- C8: the guard `if (!markdown) return ''` (line 78) sends the empty string
and an absent (null/undefined) input to the empty string. -/
theorem c8_empty_input :
    parse ("") = "" ∧ parseOpt none = "" ∧ parseOpt (some ("")) = "" :=
  ⟨rfl, rfl, rfl⟩

/-- C7: `parse` is a pure total function of its input (it is defined as one
here, so it returns a string on every input and has no effects), and
malformed constructs — an unclosed bold marker, an unclosed inline-code span,
a link or image with a missing target — fail to match and pass through as
literal (paragraph-wrapped) text instead of raising an error. -/
theorem c7_total_and_graceful :
    (∀ s : String, ∃ r : String, parse s = r) ∧
    parse ("**unclosed") = "<p>**unclosed</p>" ∧
    parse ("`x") = "<p>`x</p>" ∧
    parse ("[label](") = "<p>[label](</p>" ∧
    parse ("![](") = "<p>![](</p>" :=
  ⟨fun s => ⟨parse s, rfl⟩, by decide, by decide, by decide, by decide⟩

/-- C5 (code behaviour): a lone `---` line becomes `<hr>`, but a lone `***`
line is consumed by the italic pass (line 98, running before line 115) as
`*`‑em‑`*`, so it renders as `<p><em>*</em></p>` and never reaches the
`^\*\*\*$` rule. -/
theorem c5_hr_behaviour :
    parse ("---") = "<hr>" ∧
    parse ("***") = "<p><em>*</em></p>" ∧
    parse ("***") ≠ "<hr>" :=
  ⟨by decide, by decide, by decide⟩

/-- C3 (code behaviour): with a non-empty alt text the link pass (line 108,
running before line 111) consumes `[alt](url)`, leaving `!` plus an anchor;
only an empty alt produces an `<img>` tag. -/
theorem c3_image_behaviour :
    parse ("![alt](url)") = "<p>!<a href=\"url\" target=\"_blank\">alt</a></p>" ∧
    parse ("![alt](url)") ≠ "<p><img src=\"url\" alt=\"alt\" /></p>" ∧
    parse ("![](url)") = "<p><img src=\"url\" alt=\"\" /></p>" :=
  ⟨by decide, by decide, by decide⟩

/-- C2 counterexample: the interior of a fenced code block is not verbatim
input text — the bold pass has already run inside it. -/
theorem c2_counterexample :
    parse ("```**x**```") = "<pre><code><strong>x</strong></code></pre>" ∧
    parse ("```**x**```") ≠ "<pre><code>**x**</code></pre>" :=
  ⟨by decide, by decide⟩

/-- C2 (amended): the code-block pass itself copies the span interior
verbatim: whatever text stands between the fences when the pass runs (the
earlier escape/header/bold/italic passes have already rewritten it) is placed
unchanged between `<pre><code>` and `</code></pre>`. -/
theorem c2_codeblock_pass_verbatim (body : List Char)
    (h : ¬([tick, tick, tick] <:+: body ++ [tick, tick])) :
    runPass codeBlockF ([tick, tick, tick] ++ body ++ [tick, tick, tick]) =
      "<pre><code>".toList ++ body ++ "</code></pre>".toList := by
  have hlazy := lazyGo_append [tick, tick, tick] true (body) [] []
    (by simp) (Or.inl rfl) (by simpa using h)
  show scanG codeBlockF _ true
      (tick :: tick :: tick :: (body ++ [tick, tick, tick])) = _
  rw [show ([tick, tick, tick] ++ body ++ [tick, tick, tick]).length + 1 =
      (body.length + 6) + 1 by simp]
  show (match codeBlockF true
      (tick :: tick :: tick :: (body ++ [tick, tick, tick])) with
    | some (rep, rest2) => rep ++ scanG codeBlockF (body.length + 6) false rest2
    | none => tick :: scanG codeBlockF (body.length + 6) (tick == '\n')
        (tick :: tick :: (body ++ [tick, tick, tick]))) = _
  rw [show codeBlockF true (tick :: tick :: tick :: (body ++ [tick, tick, tick]))
      = some ("<pre><code>".toList ++ body ++ "</code></pre>".toList, []) from ?_]
  · simp [scanG_nil]
  · show (if tick == tick && tick == tick && tick == tick then
        match lazyGo [tick, tick, tick] true (body ++ [tick, tick, tick]) [] with
        | some (cap, rest2) =>
          some ("<pre><code>".toList ++ cap ++ "</code></pre>".toList, rest2)
        | none => none
      else none) = _
    rw [if_pos (by simp)]
    rw [show body ++ [tick, tick, tick] = body ++ ([tick, tick, tick] ++ []) by simp]
    rw [hlazy]
    simp

/-- Witness for `c2_codeblock_pass_verbatim` at `body = ['x']`. -/
theorem c2_codeblock_pass_verbatim_witness :
    ¬([tick, tick, tick] <:+: ['x'] ++ [tick, tick]) ∧
    runPass codeBlockF ([tick, tick, tick] ++ ['x'] ++ [tick, tick, tick]) =
      "<pre><code>".toList ++ ['x'] ++ "</code></pre>".toList := by
  have h : ¬([tick, tick, tick] <:+: ['x'] ++ [tick, tick]) := by decide
  exact ⟨h, c2_codeblock_pass_verbatim ['x'] h⟩

/-- C4 counterexample: with two list runs separated by plain text, the single
greedy wrap puts the intervening text and the second run inside the one
`<ul>`: the first (only) `</ul>` of the output comes after both. -/
theorem c4_counterexample :
    parse ("- a\n\nx\n\n- b") =
      "<ul><li>a</li>\n<p>x</p>\n<p><li>b</li></ul></p>" ∧
    splitFirstSub ("</ul>".toList) (pipeline ("- a\n\nx\n\n- b".toList)) =
      some ("<ul><li>a</li>\n<p>x</p>\n<p><li>b</li>".toList, "</p>".toList) :=
  ⟨by decide, by decide⟩

/-- C4 (amended): the single replacement of line 122 is greedy and
dot-matches-newline: it opens `<ul>` before the first `<li>` of the whole
text and closes `</ul>` after the last `</li>`, leaving everything in
between — including non-list text — inside that one `<ul>`. -/
theorem c4_greedy_single_wrap (pre mid suf : List Char)
    (h1 : ¬("<li>".toList <:+: pre ++ "<li".toList))
    (h2 : ¬("</li>".toList <:+: "/li>".toList ++ suf)) :
    ulWrapStage (pre ++ ("<li>".toList ++ (mid ++ ("</li>".toList ++ suf)))) =
      pre ++ "<ul><li>".toList ++ mid ++ "</li></ul>".toList ++ suf := by
  have e1 : splitFirstSub "<li>".toList
      (pre ++ ("<li>".toList ++ (mid ++ ("</li>".toList ++ suf)))) =
      some (pre, mid ++ ("</li>".toList ++ suf)) :=
    splitFirstSub_append "<li>".toList pre (mid ++ ("</li>".toList ++ suf))
      (by decide) (by simpa using h1)
  have e2 : splitLastSub "</li>".toList (mid ++ ("</li>".toList ++ suf)) =
      some (mid, suf) :=
    splitLastSub_append "</li>".toList mid suf (by decide) (by simpa using h2)
  unfold ulWrapStage
  rw [e1]
  simp only [e2]

/-- Witness for `c4_greedy_single_wrap` at `pre = "q"`, `mid = "a"`,
`suf = "z"`. -/
theorem c4_greedy_single_wrap_witness :
    (¬("<li>".toList <:+: ['q'] ++ "<li".toList)) ∧
    (¬("</li>".toList <:+: "/li>".toList ++ ['z'])) ∧
    ulWrapStage (['q'] ++ ("<li>".toList ++ (['a'] ++ ("</li>".toList ++ ['z'])))) =
      ['q'] ++ "<ul><li>".toList ++ ['a'] ++ "</li></ul>".toList ++ ['z'] := by
  have h1 : ¬("<li>".toList <:+: ['q'] ++ "<li".toList) := by decide
  have h2 : ¬("</li>".toList <:+: "/li>".toList ++ ['z']) := by decide
  exact ⟨h1, h2, c4_greedy_single_wrap ['q'] ['a'] ['z'] h1 h2⟩

/-- C6 counterexample: a blank-line segment that is a pure `<li>` run (from
ordered-list lines, which get no container) is *not* left alone: it is
paragraph-wrapped, because `<li` does not match `^<[h|u|o|p|b]`. -/
theorem c6_counterexample :
    parse ("1. a\n2. b") = "<p><li>a</li>\n<li>b</li></p>" ∧
    parse ("1. a\n2. b") ≠ "<li>a</li>\n<li>b</li>" :=
  ⟨by decide, by decide⟩

/-- C6 (amended): a segment starting with `<li` fails the block test (`l` is
not in the class `[h|u|o|p|b]`), so every pure `<li>` segment is wrapped in
`<p>…</p>`. -/
theorem c6_li_segment_wrapped :
    (∀ rest : List Char, wrapPara ('<' :: 'l' :: rest) =
      "<p>".toList ++ ('<' :: 'l' :: rest) ++ "</p>".toList) ∧
    parse ("1. a\n2. b") = "<p><li>a</li>\n<li>b</li></p>" :=
  ⟨fun _ => rfl, by decide⟩

/-- C10: a segment is left unwrapped exactly when its first two characters
are `<` followed by one of `h`, `|`, `u`, `o`, `p`, `b` (the character class
of line 129, which literally contains `|`); hence segments beginning with
`<pre>` or `<hr>` stay bare while segments beginning with `<code>`, `<em>`,
`<strong>`, `<a`, or `<img>` are wrapped in `<p>…</p>`. -/
theorem c10_paragraph_block_test :
    (∀ seg : List Char, wrapPara seg = seg ↔
      ∃ c rest, seg = '<' :: c :: rest ∧
        (c = 'h' ∨ c = '|' ∨ c = 'u' ∨ c = 'o' ∨ c = 'p' ∨ c = 'b')) ∧
    (∀ rest : List Char, wrapPara ('<' :: 'p' :: rest) = '<' :: 'p' :: rest) ∧
    (∀ rest : List Char, wrapPara ('<' :: 'h' :: rest) = '<' :: 'h' :: rest) ∧
    (∀ rest : List Char, wrapPara ('<' :: 'c' :: rest) =
      "<p>".toList ++ ('<' :: 'c' :: rest) ++ "</p>".toList) ∧
    (∀ rest : List Char, wrapPara ('<' :: 'e' :: rest) =
      "<p>".toList ++ ('<' :: 'e' :: rest) ++ "</p>".toList) ∧
    (∀ rest : List Char, wrapPara ('<' :: 's' :: rest) =
      "<p>".toList ++ ('<' :: 's' :: rest) ++ "</p>".toList) ∧
    (∀ rest : List Char, wrapPara ('<' :: 'a' :: rest) =
      "<p>".toList ++ ('<' :: 'a' :: rest) ++ "</p>".toList) ∧
    (∀ rest : List Char, wrapPara ('<' :: 'i' :: rest) =
      "<p>".toList ++ ('<' :: 'i' :: rest) ++ "</p>".toList) := by
  refine ⟨?_, fun _ => rfl, fun _ => rfl, fun _ => rfl, fun _ => rfl,
    fun _ => rfl, fun _ => rfl, fun _ => rfl⟩
  intro seg
  constructor
  · intro h
    rcases seg with _ | ⟨a, _ | ⟨c, rest⟩⟩
    · exfalso
      have hlen := congrArg List.length h
      simp [wrapPara, blockStartTest] at hlen
    · exfalso
      have hlen := congrArg List.length h
      simp [wrapPara, blockStartTest] at hlen
    · by_cases hb2 : blockStartTest (a :: c :: rest) = true
      · have hx := hb2
        simp only [blockStartTest, Bool.and_eq_true, Bool.or_eq_true,
          beq_iff_eq] at hx
        exact ⟨c, rest, by rw [hx.1], by tauto⟩
      · exfalso
        have hlen := congrArg List.length h
        simp [wrapPara, hb2] at hlen
        all_goals omega
  · rintro ⟨c, rest, rfl, hc⟩
    have hb : blockStartTest ('<' :: c :: rest) = true := by
      simp only [blockStartTest, Bool.and_eq_true, Bool.or_eq_true, beq_iff_eq]
      tauto
    simp [wrapPara, hb]

end MarkdownParser
